import Mathlib

/-!
The MySQL wire-protocol value codec of `src/DbProxy/mysql/encoding.go`, as a
shallow embedding of its encoding and decoding functions.

* A byte buffer (`[]byte`) and a `string` are lists of bytes; a byte is a
  natural number, and the conversion `byte(x)` is `x % 256`.
* Go's `int` is the 64-bit signed integer: every `+` and `-` of the source on
  an `int` is `addInt` / `subInt`, which wrap modulo `2^64`, and the
  conversion `int(u)` of a `uint64` is `intOfUint64`.
* A `uint64` is a natural number below `2^64`; shifts to the left are taken
  modulo `2^64`.
* A function that can panic (an index or a slice expression out of range)
  returns `Option`: `none` is the panic, `some r` is the normal return of `r`.
  A function that writes into its buffer returns the buffer after the writes
  next to its result.
* The length of a Go slice is an `int` and its bytes are addressable memory.
  The theorems about arbitrary buffers therefore take `data.length < 2 ^ 62`,
  which keeps a position inside the buffer plus a constant up to 9 inside the
  range of `int`.
-/

namespace DbProxy.mysql

/-! ## Go primitives -/

/-- The value of a mathematical integer as a 64-bit signed `int`
(two's-complement wrap-around). -/
def wrapInt (x : Int) : Int := (x + 2 ^ 63) % 2 ^ 64 - 2 ^ 63

/-- Go `a + b` on `int`. -/
def addInt (a b : Int) : Int := wrapInt (a + b)

/-- Go `a - b` on `int`. -/
def subInt (a b : Int) : Int := wrapInt (a - b)

/-- Go `int(u)` for a `uint64` value `u`. -/
def intOfUint64 (u : Nat) : Int := wrapInt (u : Int)

/-- Go `uint64(n)` for an `int` value `n`. -/
def uint64OfInt (n : Int) : Nat := (n % 2 ^ 64).toNat

/-- Go `byte(x)`: the low eight bits. -/
def byteOf (x : Nat) : Nat := x % 256

/-- Go `x << k` on `uint64`. -/
def shl64 (x k : Nat) : Nat := (x <<< k) % 2 ^ 64

/-- Go `x << k` on `uint32`. -/
def shl32 (x k : Nat) : Nat := (x <<< k) % 2 ^ 32

/-- Go `x << k` on `uint16`. -/
def shl16 (x k : Nat) : Nat := (x <<< k) % 2 ^ 16

/-- Go `len(data)`. -/
def len (data : List Nat) : Int := (data.length : Int)

/-- Go `data[pos]` as a value: panics unless `0 <= pos < len(data)`. -/
def index (data : List Nat) (pos : Int) : Option Nat :=
  if 0 ≤ pos ∧ pos < len data then data[pos.toNat]? else none

/-- Go `data[pos] = b`: panics unless `0 <= pos < len(data)`. -/
def store (data : List Nat) (pos : Int) (b : Nat) : Option (List Nat) :=
  if 0 ≤ pos ∧ pos < len data then some (data.set pos.toNat b) else none

/-- Go `data[lo:hi]`: panics unless `0 <= lo <= hi` and `hi` is within the
slice. The bound used for `hi` is `len(data)`: every slice expression of the
source is either `data[pos:]` (where `hi` is `len(data)`) or is reached only
after a check that leaves `hi <= len(data)` or `hi < lo`. -/
def slice (data : List Nat) (lo hi : Int) : Option (List Nat) :=
  if 0 ≤ lo ∧ lo ≤ hi ∧ hi ≤ len data then
    some ((data.drop lo.toNat).take (hi - lo).toNat)
  else none

/-- Go `data[lo:]`. -/
def sliceFrom (data : List Nat) (lo : Int) : Option (List Nat) :=
  slice data lo (len data)

/-- Go `copy(data[pos:], value)`: panics when `data[pos:]` does; otherwise
overwrites `min(len(data) - pos, len(value))` bytes of `data` from `pos` on
and returns the buffer with that count. -/
def copyAt (data : List Nat) (pos : Int) (value : List Nat) : Option (List Nat × Int) :=
  match sliceFrom data pos with
  | none => none
  | some dst =>
    let n := min dst.length value.length
    some (data.take pos.toNat ++ value.take n ++ data.drop (pos.toNat + n), (n : Int))

/-- Go `append(data, bs...)`. -/
def append (data bs : List Nat) : List Nat := data ++ bs

/-- Go `bytes.IndexByte(b, c)`: the index of the first `c` in `b`, or `-1`. -/
def IndexByte : List Nat → Nat → Int
  | [], _ => -1
  | b :: bs, c =>
    if b = c then 0
    else
      let r := IndexByte bs c
      if r = -1 then -1 else r + 1

/-- Go `binary.LittleEndian.Uint16(b)`. -/
def LittleEndianUint16 (b : List Nat) : Option Nat := do
  let _ ← index b 1
  let b0 ← index b 0
  let b1 ← index b 1
  pure (b0 ||| shl16 b1 8)

/-- Go `binary.LittleEndian.Uint32(b)`. -/
def LittleEndianUint32 (b : List Nat) : Option Nat := do
  let _ ← index b 3
  let b0 ← index b 0
  let b1 ← index b 1
  let b2 ← index b 2
  let b3 ← index b 3
  pure (b0 ||| shl32 b1 8 ||| shl32 b2 16 ||| shl32 b3 24)

/-- Go `binary.LittleEndian.Uint64(b)`. -/
def LittleEndianUint64 (b : List Nat) : Option Nat := do
  let _ ← index b 7
  let b0 ← index b 0
  let b1 ← index b 1
  let b2 ← index b 2
  let b3 ← index b 3
  let b4 ← index b 4
  let b5 ← index b 5
  let b6 ← index b 6
  let b7 ← index b 7
  pure (b0 ||| shl64 b1 8 ||| shl64 b2 16 ||| shl64 b3 24 |||
    shl64 b4 32 ||| shl64 b5 40 ||| shl64 b6 48 ||| shl64 b7 56)

/-! ## Encoding methods -/

/-- `LenEncIntSize` (encoding.go:20). -/
def LenEncIntSize (i : Nat) : Int :=
  if i < 251 then 1
  else if i < 1 <<< 16 then 3
  else if i < 1 <<< 24 then 4
  else 9

/-- `WriteLenEncInt` (encoding.go:34). -/
def WriteLenEncInt (data : List Nat) (pos : Int) (i : Nat) : Option (List Nat × Int) :=
  if i < 251 then do
    let data ← store data pos (byteOf i)
    pure (data, addInt pos 1)
  else if i < 1 <<< 16 then do
    let data ← store data pos 0xfc
    let data ← store data (addInt pos 1) (byteOf i)
    let data ← store data (addInt pos 2) (byteOf (i >>> 8))
    pure (data, addInt pos 3)
  else if i < 1 <<< 24 then do
    let data ← store data pos 0xfd
    let data ← store data (addInt pos 1) (byteOf i)
    let data ← store data (addInt pos 2) (byteOf (i >>> 8))
    let data ← store data (addInt pos 3) (byteOf (i >>> 16))
    pure (data, addInt pos 4)
  else do
    let data ← store data pos 0xfe
    let data ← store data (addInt pos 1) (byteOf i)
    let data ← store data (addInt pos 2) (byteOf (i >>> 8))
    let data ← store data (addInt pos 3) (byteOf (i >>> 16))
    let data ← store data (addInt pos 4) (byteOf (i >>> 24))
    let data ← store data (addInt pos 5) (byteOf (i >>> 32))
    let data ← store data (addInt pos 6) (byteOf (i >>> 40))
    let data ← store data (addInt pos 7) (byteOf (i >>> 48))
    let data ← store data (addInt pos 8) (byteOf (i >>> 56))
    pure (data, addInt pos 9)

/-- `AppendLenEncInt` (encoding.go:65). -/
def AppendLenEncInt (data : List Nat) (i : Nat) : List Nat :=
  if i ≤ 250 then append data [byteOf i]
  else if i ≤ 0xffff then append data [0xfc, byteOf i, byteOf (i >>> 8)]
  else if i ≤ 0xffffff then
    append data [0xfd, byteOf i, byteOf (i >>> 8), byteOf (i >>> 16)]
  else if i ≤ 0xffffffffffffffff then
    append data [0xfe, byteOf i, byteOf (i >>> 8), byteOf (i >>> 16), byteOf (i >>> 24),
      byteOf (i >>> 32), byteOf (i >>> 40), byteOf (i >>> 48), byteOf (i >>> 56)]
  else data

/-- `LenNullString` (encoding.go:85). -/
def LenNullString (value : List Nat) : Int := addInt (value.length : Int) 1

/-- `WriteNullString` (encoding.go:90). -/
def WriteNullString (data : List Nat) (pos : Int) (value : List Nat) :
    Option (List Nat × Int) := do
  let (data, n) ← copyAt data pos value
  let pos := addInt pos n
  let data ← store data pos 0
  pure (data, addInt pos 1)

/-- `writeEOFString` (encoding.go:96). -/
def writeEOFString (data : List Nat) (pos : Int) (value : List Nat) :
    Option (List Nat × Int) := do
  let (data, n) ← copyAt data pos value
  let pos := addInt pos n
  pure (data, pos)

/-- `WriteByte` (encoding.go:102). -/
def WriteByte (data : List Nat) (pos : Int) (value : Nat) : Option (List Nat × Int) := do
  let data ← store data pos value
  pure (data, addInt pos 1)

/-- `WriteUint16` (encoding.go:108). -/
def WriteUint16 (data : List Nat) (pos : Int) (value : Nat) : Option (List Nat × Int) := do
  let data ← store data pos (byteOf value)
  let data ← store data (addInt pos 1) (byteOf (value >>> 8))
  pure (data, addInt pos 2)

/-- `AppendUint16` (encoding.go:115). -/
def AppendUint16 (data : List Nat) (n : Nat) : List Nat :=
  let data := append data [byteOf n]
  let data := append data [byteOf (n >>> 8)]
  data

/-- `WriteUint32` (encoding.go:122). -/
def WriteUint32 (data : List Nat) (pos : Int) (value : Nat) : Option (List Nat × Int) := do
  let data ← store data pos (byteOf value)
  let data ← store data (addInt pos 1) (byteOf (value >>> 8))
  let data ← store data (addInt pos 2) (byteOf (value >>> 16))
  let data ← store data (addInt pos 3) (byteOf (value >>> 24))
  pure (data, addInt pos 4)

/-- `AppendUint32` (encoding.go:131). -/
def AppendUint32 (data : List Nat) (n : Nat) : List Nat :=
  let data := append data [byteOf n]
  let data := append data [byteOf (n >>> 8)]
  let data := append data [byteOf (n >>> 16)]
  let data := append data [byteOf (n >>> 24)]
  data

/-- `WriteUint64` (encoding.go:140). -/
def WriteUint64 (data : List Nat) (pos : Int) (value : Nat) : Option (List Nat × Int) := do
  let data ← store data pos (byteOf value)
  let data ← store data (addInt pos 1) (byteOf (value >>> 8))
  let data ← store data (addInt pos 2) (byteOf (value >>> 16))
  let data ← store data (addInt pos 3) (byteOf (value >>> 24))
  let data ← store data (addInt pos 4) (byteOf (value >>> 32))
  let data ← store data (addInt pos 5) (byteOf (value >>> 40))
  let data ← store data (addInt pos 6) (byteOf (value >>> 48))
  let data ← store data (addInt pos 7) (byteOf (value >>> 56))
  pure (data, addInt pos 8)

/-- `AppendUint64` (encoding.go:153). -/
def AppendUint64 (data : List Nat) (n : Nat) : List Nat :=
  let data := append data [byteOf n]
  let data := append data [byteOf (n >>> 8)]
  let data := append data [byteOf (n >>> 16)]
  let data := append data [byteOf (n >>> 24)]
  let data := append data [byteOf (n >>> 32)]
  let data := append data [byteOf (n >>> 40)]
  let data := append data [byteOf (n >>> 48)]
  let data := append data [byteOf (n >>> 56)]
  data

/-- `LenEncStringSize` (encoding.go:167). -/
def LenEncStringSize (value : List Nat) : Int :=
  let l : Int := (value.length : Int)
  addInt (LenEncIntSize (uint64OfInt l)) l

/-- `WriteLenEncString` (encoding.go:173). -/
def WriteLenEncString (data : List Nat) (pos : Int) (value : List Nat) :
    Option (List Nat × Int) := do
  let (data, pos) ← WriteLenEncInt data pos (uint64OfInt (value.length : Int))
  writeEOFString data pos value

/-- `AppendLenEncStringBytes` (encoding.go:179). -/
def AppendLenEncStringBytes (data b : List Nat) : List Nat :=
  let data := AppendLenEncInt data (uint64OfInt (b.length : Int))
  let data := append data b
  data

/-- The loop of `WriteZeroes`, started at `i` with `fuel` iterations left. -/
def WriteZeroesLoop (data : List Nat) (pos n : Int) : Nat → Int → Option (List Nat)
  | 0, _ => some data
  | fuel + 1, i =>
    if i < n then
      match store data (addInt pos i) 0 with
      | none => none
      | some data => WriteZeroesLoop data pos n fuel (addInt i 1)
    else some data

/-- `WriteZeroes` (encoding.go:186); the loop runs at most `len` times. -/
def WriteZeroes (data : List Nat) (pos : Int) (n : Int) : Option (List Nat × Int) := do
  let data ← WriteZeroesLoop data pos n n.toNat 0
  pure (data, addInt pos n)

/-! ## Decoding methods -/

/-- `ReadByte` (encoding.go:202). -/
def ReadByte (data : List Nat) (pos : Int) : Option (Nat × Int × Bool) :=
  if pos ≥ len data then some (0, 0, false)
  else do
    let b ← index data pos
    pure (b, addInt pos 1, true)

/-- `ReadBytes` (encoding.go:210); the `nil` slice is the empty list. -/
def ReadBytes (data : List Nat) (pos : Int) (size : Int) : Option (List Nat × Int × Bool) :=
  if subInt (addInt pos size) 1 ≥ len data then some ([], 0, false)
  else do
    let r ← slice data pos (addInt pos size)
    pure (r, addInt pos size, true)

/-- Go `make([]byte, size)`: panics on a negative size. A size beyond the
allocator's limit panics too; `ReadBytesCopy` reaches `make` with such a size
only on inputs where the slice expression that follows panics as well. -/
def makeBytes (size : Int) : Option (List Nat) :=
  if 0 ≤ size then some (List.replicate size.toNat 0) else none

/-- `ReadBytesCopy` (encoding.go:219). -/
def ReadBytesCopy (data : List Nat) (pos : Int) (size : Int) :
    Option (List Nat × Int × Bool) :=
  if subInt (addInt pos size) 1 ≥ len data then some ([], 0, false)
  else do
    let result ← makeBytes size
    let src ← slice data pos (addInt pos size)
    let (result, _) ← copyAt result 0 src
    pure (result, addInt pos size, true)

/-- `ReadNullString` (encoding.go:229). -/
def ReadNullString (data : List Nat) (pos : Int) : Option (List Nat × Int × Bool) := do
  let rest ← sliceFrom data pos
  let e := IndexByte rest 0
  if e = -1 then pure ([], 0, false)
  else do
    let s ← slice data pos (addInt pos e)
    pure (s, addInt (addInt pos e) 1, true)

/-- `ReadUint16` (encoding.go:238). -/
def ReadUint16 (data : List Nat) (pos : Int) : Option (Nat × Int × Bool) :=
  if addInt pos 1 ≥ len data then some (0, 0, false)
  else do
    let b ← slice data pos (addInt pos 2)
    let v ← LittleEndianUint16 b
    pure (v, addInt pos 2, true)

/-- `ReadUint32` (encoding.go:246). -/
def ReadUint32 (data : List Nat) (pos : Int) : Option (Nat × Int × Bool) :=
  if addInt pos 3 ≥ len data then some (0, 0, false)
  else do
    let b ← slice data pos (addInt pos 4)
    let v ← LittleEndianUint32 b
    pure (v, addInt pos 4, true)

/-- `ReadUint64` (encoding.go:254). -/
def ReadUint64 (data : List Nat) (pos : Int) : Option (Nat × Int × Bool) :=
  if addInt pos 7 ≥ len data then some (0, 0, false)
  else do
    let b ← slice data pos (addInt pos 8)
    let v ← LittleEndianUint64 b
    pure (v, addInt pos 8, true)

/-- `ReadLenEncInt` (encoding.go:263): value, next position, isNull, ok. -/
def ReadLenEncInt (data : List Nat) (pos : Int) : Option (Nat × Int × Bool × Bool) :=
  let isNull := false
  if pos ≥ len data then some (0, 0, isNull, false)
  else do
    let m ← index data pos
    if m = 0xfb then
      pure (0, addInt pos 1, true, true)
    else if m = 0xfc then
      if addInt pos 2 ≥ len data then pure (0, 0, isNull, false)
      else do
        let b1 ← index data (addInt pos 1)
        let b2 ← index data (addInt pos 2)
        pure (b1 ||| shl64 b2 8, addInt pos 3, isNull, true)
    else if m = 0xfd then
      if addInt pos 3 ≥ len data then pure (0, 0, isNull, false)
      else do
        let b1 ← index data (addInt pos 1)
        let b2 ← index data (addInt pos 2)
        let b3 ← index data (addInt pos 3)
        pure (b1 ||| shl64 b2 8 ||| shl64 b3 16, addInt pos 4, isNull, true)
    else if m = 0xfe then
      if addInt pos 8 ≥ len data then pure (0, 0, isNull, false)
      else do
        let b1 ← index data (addInt pos 1)
        let b2 ← index data (addInt pos 2)
        let b3 ← index data (addInt pos 3)
        let b4 ← index data (addInt pos 4)
        let b5 ← index data (addInt pos 5)
        let b6 ← index data (addInt pos 6)
        let b7 ← index data (addInt pos 7)
        let b8 ← index data (addInt pos 8)
        pure (b1 ||| shl64 b2 8 ||| shl64 b3 16 ||| shl64 b4 24 ||| shl64 b5 32 |||
          shl64 b6 40 ||| shl64 b7 48 ||| shl64 b8 56, addInt pos 9, isNull, true)
    else do
      let b ← index data pos
      pure (b, addInt pos 1, isNull, true)

/-- `readLenEncString` (encoding.go:306). -/
def readLenEncString (data : List Nat) (pos : Int) : Option (List Nat × Int × Bool) := do
  let (size, pos, _, ok) ← ReadLenEncInt data pos
  if !ok then pure ([], 0, false)
  else
    let s := intOfUint64 size
    if subInt (addInt pos s) 1 ≥ len data then pure ([], 0, false)
    else do
      let r ← slice data pos (addInt pos s)
      pure (r, addInt pos s, true)

/-- `skipLenEncString` (encoding.go:319). -/
def skipLenEncString (data : List Nat) (pos : Int) : Option (Int × Bool) := do
  let (size, pos, _, ok) ← ReadLenEncInt data pos
  if !ok then pure (0, false)
  else
    let s := intOfUint64 size
    if subInt (addInt pos s) 1 ≥ len data then pure (0, false)
    else pure (addInt pos s, true)

/-- `ReadLenEncStringAsBytes` (encoding.go:332): bytes, next position, isNull,
ok; the `nil` slice is the empty list. -/
def ReadLenEncStringAsBytes (data : List Nat) (pos : Int) :
    Option (List Nat × Int × Bool × Bool) := do
  let (size, pos, isNull, ok) ← ReadLenEncInt data pos
  if !ok then pure ([], 0, isNull, false)
  else
    let s := intOfUint64 size
    if subInt (addInt pos s) 1 ≥ len data then pure ([], 0, isNull, false)
    else do
      let r ← slice data pos (addInt pos s)
      pure (r, addInt pos s, isNull, true)

/-! ## Arithmetic of the primitives -/

theorem wrapInt_eq_self {x : Int} (hlo : -2 ^ 63 ≤ x) (hhi : x < 2 ^ 63) : wrapInt x = x := by
  unfold wrapInt
  omega

theorem addInt_eq_add {a b : Int} (hlo : -2 ^ 63 ≤ a + b) (hhi : a + b < 2 ^ 63) :
    addInt a b = a + b :=
  wrapInt_eq_self hlo hhi

theorem subInt_eq_sub {a b : Int} (hlo : -2 ^ 63 ≤ a - b) (hhi : a - b < 2 ^ 63) :
    subInt a b = a - b :=
  wrapInt_eq_self hlo hhi

theorem or_shiftLeft_eq_add {x i : Nat} (a : Nat) (hx : x < 2 ^ i) :
    x ||| a <<< i = x + a * 2 ^ i := by
  rw [Nat.or_comm, Nat.shiftLeft_eq, Nat.mul_comm a, ← Nat.mul_add_lt_is_or hx, Nat.add_comm]

theorem shl64_eq_mul {b k : Nat} (hb : b < 256) (hk : k ≤ 56) : shl64 b k = b * 2 ^ k := by
  unfold shl64
  rw [Nat.shiftLeft_eq]
  apply Nat.mod_eq_of_lt
  calc b * 2 ^ k < 256 * 2 ^ k := Nat.mul_lt_mul_of_pos_right hb (Nat.pow_pos (by decide))
    _ ≤ 256 * 2 ^ 56 := Nat.mul_le_mul_left _ (Nat.pow_le_pow_right (by decide) hk)
    _ = 2 ^ 64 := by norm_num

theorem or_shl64_eq_add {x b k : Nat} (hx : x < 2 ^ k) (hb : b < 256) (hk : k ≤ 56) :
    x ||| shl64 b k = x + b * 2 ^ k := by
  rw [shl64_eq_mul hb hk, ← Nat.shiftLeft_eq, or_shiftLeft_eq_add b hx, Nat.shiftLeft_eq]

/-- The two-byte little-endian composition of `ReadLenEncInt`. -/
theorem compose2 {b1 b2 : Nat} (h1 : b1 < 256) (h2 : b2 < 256) :
    b1 ||| shl64 b2 8 = b1 + b2 * 2 ^ 8 := by
  rw [or_shl64_eq_add (by omega) h2 (by omega)]

/-- The three-byte little-endian composition of `ReadLenEncInt`. -/
theorem compose3 {b1 b2 b3 : Nat} (h1 : b1 < 256) (h2 : b2 < 256) (h3 : b3 < 256) :
    b1 ||| shl64 b2 8 ||| shl64 b3 16 = b1 + b2 * 2 ^ 8 + b3 * 2 ^ 16 := by
  rw [compose2 h1 h2, or_shl64_eq_add (by omega) h3 (by omega)]

/-- The eight-byte little-endian composition of `ReadLenEncInt` and `ReadUint64`. -/
theorem compose8 {b1 b2 b3 b4 b5 b6 b7 b8 : Nat} (h1 : b1 < 256) (h2 : b2 < 256)
    (h3 : b3 < 256) (h4 : b4 < 256) (h5 : b5 < 256) (h6 : b6 < 256) (h7 : b7 < 256)
    (h8 : b8 < 256) :
    b1 ||| shl64 b2 8 ||| shl64 b3 16 ||| shl64 b4 24 ||| shl64 b5 32 ||| shl64 b6 40 |||
      shl64 b7 48 ||| shl64 b8 56 =
    b1 + b2 * 2 ^ 8 + b3 * 2 ^ 16 + b4 * 2 ^ 24 + b5 * 2 ^ 32 + b6 * 2 ^ 40 + b7 * 2 ^ 48 +
      b8 * 2 ^ 56 := by
  rw [compose3 h1 h2 h3, or_shl64_eq_add (by omega) h4 (by omega),
    or_shl64_eq_add (by omega) h5 (by omega), or_shl64_eq_add (by omega) h6 (by omega),
    or_shl64_eq_add (by omega) h7 (by omega), or_shl64_eq_add (by omega) h8 (by omega)]

theorem byteOf_lt (x : Nat) : byteOf x < 256 := Nat.mod_lt _ (by decide)

/-- The little-endian bytes of a value below `2^16` compose back to it. -/
theorem bytes2_compose {v : Nat} (hv : v < 2 ^ 16) :
    byteOf v ||| shl64 (byteOf (v >>> 8)) 8 = v := by
  rw [compose2 (byteOf_lt _) (byteOf_lt _)]
  simp only [byteOf, Nat.shiftRight_eq_div_pow]
  omega

/-- The little-endian bytes of a value below `2^24` compose back to it. -/
theorem bytes3_compose {v : Nat} (hv : v < 2 ^ 24) :
    byteOf v ||| shl64 (byteOf (v >>> 8)) 8 ||| shl64 (byteOf (v >>> 16)) 16 = v := by
  rw [compose3 (byteOf_lt _) (byteOf_lt _) (byteOf_lt _)]
  simp only [byteOf, Nat.shiftRight_eq_div_pow]
  omega

/-- The little-endian bytes of a value below `2^64` compose back to it. -/
theorem bytes8_compose {v : Nat} (hv : v < 2 ^ 64) :
    byteOf v ||| shl64 (byteOf (v >>> 8)) 8 ||| shl64 (byteOf (v >>> 16)) 16 |||
      shl64 (byteOf (v >>> 24)) 24 ||| shl64 (byteOf (v >>> 32)) 32 |||
      shl64 (byteOf (v >>> 40)) 40 ||| shl64 (byteOf (v >>> 48)) 48 |||
      shl64 (byteOf (v >>> 56)) 56 = v := by
  rw [compose8 (byteOf_lt _) (byteOf_lt _) (byteOf_lt _) (byteOf_lt _) (byteOf_lt _)
    (byteOf_lt _) (byteOf_lt _) (byteOf_lt _)]
  simp only [byteOf, Nat.shiftRight_eq_div_pow]
  omega

/-! ## Indexing and storing inside a buffer `pre ++ mid ++ post` -/

theorem index_mid (pre mid post : List Nat) (j : Nat) (pos : Int)
    (hpos : pos = (pre.length : Int) + j) (hj : j < mid.length) :
    index (pre ++ mid ++ post) pos = mid[j]? := by
  subst hpos
  have hr : (0 : Int) ≤ (pre.length : Int) + j ∧
      (pre.length : Int) + j < len (pre ++ mid ++ post) := by
    simp only [len, List.length_append]
    push_cast
    omega
  have ht : ((pre.length : Int) + (j : Int)).toNat = pre.length + j := by omega
  rw [index, if_pos hr, ht, List.append_assoc, List.getElem?_append_right (by omega)]
  simp [List.getElem?_append_left hj]

theorem store_mid (pre mid post : List Nat) (j : Nat) (pos : Int) (b : Nat)
    (hpos : pos = (pre.length : Int) + j) (hj : j < mid.length) :
    store (pre ++ mid ++ post) pos b = some (pre ++ mid.set j b ++ post) := by
  subst hpos
  have hr : (0 : Int) ≤ (pre.length : Int) + j ∧
      (pre.length : Int) + j < len (pre ++ mid ++ post) := by
    simp only [len, List.length_append]
    push_cast
    omega
  have ht : ((pre.length : Int) + (j : Int)).toNat = pre.length + j := by omega
  rw [store, if_pos hr, ht, List.append_assoc, List.set_append_right _ _ (by omega)]
  simp [List.set_append_left _ _ hj]

/-- A buffer with room for `n` bytes at `pos` splits around that window. -/
theorem exists_window (data : List Nat) (pos : Int) (n : Nat) (h0 : 0 ≤ pos)
    (hcap : pos + n ≤ len data) :
    ∃ pre mid post, data = pre ++ mid ++ post ∧ (pre.length : Int) = pos ∧ mid.length = n ∧
      pre = data.take pos.toNat ∧ mid = (data.drop pos.toNat).take n ∧
      post = data.drop (pos.toNat + n) := by
  unfold len at hcap
  refine ⟨data.take pos.toNat, (data.drop pos.toNat).take n, data.drop (pos.toNat + n),
    ?_, ?_, ?_, rfl, rfl, rfl⟩
  · rw [List.append_assoc, ← List.drop_drop, List.take_append_drop, List.take_append_drop]
  · rw [List.length_take]
    omega
  · rw [List.length_take, List.length_drop]
    omega

/-! ## Length-encoded integers: writing and reading a window -/

theorem WriteLenEncInt_window (pre mid post : List Nat) (pos : Int) (i : Nat)
    (hpos : (pre.length : Int) = pos) (hmid : (mid.length : Int) = LenEncIntSize i)
    (hi : i < 2 ^ 64) (hfit : pos + 9 < 2 ^ 63) :
    WriteLenEncInt (pre ++ mid ++ post) pos i =
      some (pre ++ AppendLenEncInt [] i ++ post, pos + LenEncIntSize i) := by
  have ha : ∀ k : Int, 0 ≤ k → k ≤ 9 → addInt pos k = pos + k := fun k h0 h9 =>
    addInt_eq_add (by omega) (by omega)
  have hp0 : pos = (pre.length : Int) + ((0 : Nat) : Int) := by omega
  have h1 : addInt pos 1 = (pre.length : Int) + ((1 : Nat) : Int) := by
    rw [ha 1 (by omega) (by omega)]; omega
  have h2 : addInt pos 2 = (pre.length : Int) + ((2 : Nat) : Int) := by
    rw [ha 2 (by omega) (by omega)]; omega
  have h3 : addInt pos 3 = (pre.length : Int) + ((3 : Nat) : Int) := by
    rw [ha 3 (by omega) (by omega)]; omega
  have h4 : addInt pos 4 = (pre.length : Int) + ((4 : Nat) : Int) := by
    rw [ha 4 (by omega) (by omega)]; omega
  have h5 : addInt pos 5 = (pre.length : Int) + ((5 : Nat) : Int) := by
    rw [ha 5 (by omega) (by omega)]; omega
  have h6 : addInt pos 6 = (pre.length : Int) + ((6 : Nat) : Int) := by
    rw [ha 6 (by omega) (by omega)]; omega
  have h7 : addInt pos 7 = (pre.length : Int) + ((7 : Nat) : Int) := by
    rw [ha 7 (by omega) (by omega)]; omega
  have h8 : addInt pos 8 = (pre.length : Int) + ((8 : Nat) : Int) := by
    rw [ha 8 (by omega) (by omega)]; omega
  unfold WriteLenEncInt AppendLenEncInt LenEncIntSize append
  unfold LenEncIntSize at hmid
  by_cases c1 : i < 251
  · rw [if_pos c1] at hmid
    obtain ⟨x0, rfl⟩ : ∃ x0, mid = [x0] := List.length_eq_one.mp (by omega)
    rw [if_pos c1, if_pos c1, if_pos (by omega : i ≤ 250)]
    simp only [bind, pure]
    rw [store_mid pre _ post 0 _ _ hp0 (by simp)]
    simp [ha 1 (by omega) (by omega)]
  · rw [if_neg c1] at hmid
    rw [if_neg c1, if_neg c1, if_neg (by omega : ¬ i ≤ 250)]
    by_cases c2 : i < 1 <<< 16
    · rw [if_pos c2] at hmid
      obtain ⟨x0, x1, x2, rfl⟩ : ∃ x0 x1 x2, mid = [x0, x1, x2] :=
        List.length_eq_three.mp (by omega)
      rw [if_pos c2, if_pos c2, if_pos (by simp at c2; omega : i ≤ 0xffff)]
      simp only [bind, pure]
      rw [store_mid pre _ post 0 _ _ hp0 (by simp), Option.some_bind,
        store_mid pre _ post 1 _ _ h1 (by simp), Option.some_bind,
        store_mid pre _ post 2 _ _ h2 (by simp), Option.some_bind]
      simp [ha 3 (by omega) (by omega)]
    · rw [if_neg c2] at hmid
      rw [if_neg c2, if_neg c2, if_neg (by simp at c2; omega : ¬ i ≤ 0xffff)]
      by_cases c3 : i < 1 <<< 24
      · rw [if_pos c3] at hmid
        have hl : mid.length = 4 := by omega
        rcases mid with _ | ⟨x0, _ | ⟨x1, _ | ⟨x2, _ | ⟨x3, _ | ⟨x4, t⟩⟩⟩⟩⟩ <;>
          simp at hl
        rw [if_pos c3, if_pos c3, if_pos (by simp at c3; omega : i ≤ 0xffffff)]
        simp only [bind, pure]
        rw [store_mid pre _ post 0 _ _ hp0 (by simp), Option.some_bind,
          store_mid pre _ post 1 _ _ h1 (by simp), Option.some_bind,
          store_mid pre _ post 2 _ _ h2 (by simp), Option.some_bind,
          store_mid pre _ post 3 _ _ h3 (by simp), Option.some_bind]
        simp [ha 4 (by omega) (by omega)]
      · rw [if_neg c3] at hmid
        have hl : mid.length = 9 := by omega
        rcases mid with _ | ⟨x0, _ | ⟨x1, _ | ⟨x2, _ | ⟨x3, _ | ⟨x4, _ | ⟨x5, _ | ⟨x6,
          _ | ⟨x7, _ | ⟨x8, _ | ⟨x9, t⟩⟩⟩⟩⟩⟩⟩⟩⟩⟩ <;> simp at hl
        rw [if_neg c3, if_neg c3, if_neg (by simp at c3; omega : ¬ i ≤ 0xffffff),
          if_pos (by omega : i ≤ 0xffffffffffffffff)]
        simp only [bind, pure]
        rw [store_mid pre _ post 0 _ _ hp0 (by simp), Option.some_bind,
          store_mid pre _ post 1 _ _ h1 (by simp), Option.some_bind,
          store_mid pre _ post 2 _ _ h2 (by simp), Option.some_bind,
          store_mid pre _ post 3 _ _ h3 (by simp), Option.some_bind,
          store_mid pre _ post 4 _ _ h4 (by simp), Option.some_bind,
          store_mid pre _ post 5 _ _ h5 (by simp), Option.some_bind,
          store_mid pre _ post 6 _ _ h6 (by simp), Option.some_bind,
          store_mid pre _ post 7 _ _ h7 (by simp), Option.some_bind,
          store_mid pre _ post 8 _ _ h8 (by simp), Option.some_bind]
        simp [ha 9 (by omega) (by omega)]

theorem ReadLenEncInt_window (pre post : List Nat) (pos : Int) (v : Nat)
    (hpos : (pre.length : Int) = pos) (hv : v < 2 ^ 64) (hfit : pos + 9 < 2 ^ 63) :
    ReadLenEncInt (pre ++ AppendLenEncInt [] v ++ post) pos =
      some (v, pos + LenEncIntSize v, false, true) := by
  have ha : ∀ k : Int, 0 ≤ k → k ≤ 9 → addInt pos k = pos + k := fun k h0 h9 =>
    addInt_eq_add (by omega) (by omega)
  have hp : ∀ (k : Int) (j : Nat), k = (j : Int) → pos + k = (pre.length : Int) + (j : Int) :=
    fun k j h => by omega
  have hp0 : pos = (pre.length : Int) + ((0 : Nat) : Int) := by omega
  have hge : ∀ (mid : List Nat) (k : Int), k < (mid.length : Int) →
      ¬ (pos + k ≥ len (pre ++ mid ++ post)) := by
    intro mid k hk
    simp only [len, List.length_append]
    push_cast
    omega
  unfold ReadLenEncInt AppendLenEncInt LenEncIntSize append
  simp only [List.nil_append]
  by_cases c1 : v < 251
  · rw [if_pos (by omega : v ≤ 250), if_pos c1]
    have hb : byteOf v = v := Nat.mod_eq_of_lt (by omega)
    have h0 := hge [byteOf v] 0 (by simp)
    rw [Int.add_zero] at h0
    rw [if_neg h0]
    simp only [bind, pure]
    rw [index_mid pre _ post 0 _ hp0 (by simp)]
    simp only [List.getElem?_cons_zero, Option.some_bind, hb]
    rw [if_neg (by omega), if_neg (by omega), if_neg (by omega), if_neg (by omega),
      ha 1 (by omega) (by omega)]
  · rw [if_neg (by omega : ¬ v ≤ 250), if_neg c1]
    by_cases c2 : v < 1 <<< 16
    · have c2' : v < 2 ^ 16 := by simpa using c2
      rw [if_pos (by omega : v ≤ 0xffff), if_pos c2]
      have h0 := hge [0xfc, byteOf v, byteOf (v >>> 8)] 0 (by simp)
      rw [Int.add_zero] at h0
      have hc := hge [0xfc, byteOf v, byteOf (v >>> 8)] 2 (by simp)
      rw [if_neg h0]
      simp only [bind, pure]
      rw [index_mid pre _ post 0 _ hp0 (by simp)]
      simp only [List.getElem?_cons_zero, Option.some_bind]
      rw [if_pos trivial, ha 2 (by omega) (by omega), if_neg hc, ha 1 (by omega) (by omega),
        index_mid pre _ post 1 _ (hp 1 1 rfl) (by simp),
        index_mid pre _ post 2 _ (hp 2 2 rfl) (by simp)]
      simp only [List.getElem?_cons_zero, List.getElem?_cons_succ, Option.bind_eq_bind,
        Option.some_bind, bytes2_compose c2', ha 3 (by omega) (by omega)]
      simp
    · rw [if_neg (by simp at c2; omega : ¬ v ≤ 0xffff), if_neg c2]
      by_cases c3 : v < 1 <<< 24
      · have c3' : v < 2 ^ 24 := by simpa using c3
        rw [if_pos (by omega : v ≤ 0xffffff), if_pos c3]
        have h0 := hge [0xfd, byteOf v, byteOf (v >>> 8), byteOf (v >>> 16)] 0 (by simp)
        rw [Int.add_zero] at h0
        have hc := hge [0xfd, byteOf v, byteOf (v >>> 8), byteOf (v >>> 16)] 3 (by simp)
        rw [if_neg h0]
        simp only [bind, pure]
        rw [index_mid pre _ post 0 _ hp0 (by simp)]
        simp only [List.getElem?_cons_zero, Option.some_bind]
        rw [if_neg (by decide), if_pos trivial, ha 3 (by omega) (by omega), if_neg hc,
          ha 1 (by omega) (by omega), ha 2 (by omega) (by omega),
          index_mid pre _ post 1 _ (hp 1 1 rfl) (by simp),
          index_mid pre _ post 2 _ (hp 2 2 rfl) (by simp),
          index_mid pre _ post 3 _ (hp 3 3 rfl) (by simp)]
        simp only [List.getElem?_cons_zero, List.getElem?_cons_succ, Option.bind_eq_bind,
          Option.some_bind, bytes3_compose c3', ha 4 (by omega) (by omega)]
        simp
      · rw [if_neg (by simp at c3; omega : ¬ v ≤ 0xffffff), if_neg c3,
          if_pos (by omega : v ≤ 0xffffffffffffffff)]
        have h0 := hge [0xfe, byteOf v, byteOf (v >>> 8), byteOf (v >>> 16),
          byteOf (v >>> 24), byteOf (v >>> 32), byteOf (v >>> 40), byteOf (v >>> 48),
          byteOf (v >>> 56)] 0 (by simp)
        rw [Int.add_zero] at h0
        have hc := hge [0xfe, byteOf v, byteOf (v >>> 8), byteOf (v >>> 16),
          byteOf (v >>> 24), byteOf (v >>> 32), byteOf (v >>> 40), byteOf (v >>> 48),
          byteOf (v >>> 56)] 8 (by simp)
        rw [if_neg h0]
        simp only [bind, pure]
        rw [index_mid pre _ post 0 _ hp0 (by simp)]
        simp only [List.getElem?_cons_zero, Option.some_bind]
        rw [if_neg (by decide), if_neg (by decide), if_pos trivial, ha 8 (by omega) (by omega),
          if_neg hc,
          ha 1 (by omega) (by omega), ha 2 (by omega) (by omega), ha 3 (by omega) (by omega),
          ha 4 (by omega) (by omega), ha 5 (by omega) (by omega), ha 6 (by omega) (by omega),
          ha 7 (by omega) (by omega),
          index_mid pre _ post 1 _ (hp 1 1 rfl) (by simp),
          index_mid pre _ post 2 _ (hp 2 2 rfl) (by simp),
          index_mid pre _ post 3 _ (hp 3 3 rfl) (by simp),
          index_mid pre _ post 4 _ (hp 4 4 rfl) (by simp),
          index_mid pre _ post 5 _ (hp 5 5 rfl) (by simp),
          index_mid pre _ post 6 _ (hp 6 6 rfl) (by simp),
          index_mid pre _ post 7 _ (hp 7 7 rfl) (by simp),
          index_mid pre _ post 8 _ (hp 8 8 rfl) (by simp)]
        simp only [List.getElem?_cons_zero, List.getElem?_cons_succ, Option.bind_eq_bind,
          Option.some_bind, bytes8_compose hv, ha 9 (by omega) (by omega)]
        simp


theorem slice_mid (pre mid post : List Nat) (lo hi : Int) (hlo : lo = (pre.length : Int))
    (hhi : hi = (pre.length : Int) + (mid.length : Int)) :
    slice (pre ++ mid ++ post) lo hi = some mid := by
  subst hlo hhi
  have hr : (0 : Int) ≤ (pre.length : Int) ∧
      (pre.length : Int) ≤ (pre.length : Int) + (mid.length : Int) ∧
      (pre.length : Int) + (mid.length : Int) ≤ len (pre ++ mid ++ post) := by
    simp only [len, List.length_append]
    push_cast
    omega
  rw [slice, if_pos hr]
  simp

theorem LenEncIntSize_pos (i : Nat) : 1 ≤ LenEncIntSize i ∧ LenEncIntSize i ≤ 9 := by
  unfold LenEncIntSize
  split_ifs <;> omega

theorem AppendLenEncInt_length (data : List Nat) (i : Nat) (hi : i < 2 ^ 64) :
    ((AppendLenEncInt data i).length : Int) = (data.length : Int) + LenEncIntSize i := by
  unfold AppendLenEncInt LenEncIntSize append
  simp only [Nat.reduceShiftLeft]
  split_ifs <;> first | (simp; done) | omega

/-- With room for the encoding, `WriteLenEncInt` overwrites exactly the window
`data[pos : pos+LenEncIntSize(i)]`, with the bytes `AppendLenEncInt` appends. -/
theorem WriteLenEncInt_spec (data : List Nat) (pos : Int) (i : Nat) (hi : i < 2 ^ 64)
    (hpos : 0 ≤ pos) (hcap : pos + LenEncIntSize i ≤ len data) (hlen : data.length < 2 ^ 62) :
    WriteLenEncInt data pos i =
      some (data.take pos.toNat ++ AppendLenEncInt [] i ++
        data.drop (pos.toNat + (LenEncIntSize i).toNat), pos + LenEncIntSize i) := by
  have hs := LenEncIntSize_pos i
  obtain ⟨pre, mid, post, hd, hpre, hmid, e1, -, e3⟩ :=
    exists_window data pos (LenEncIntSize i).toNat hpos (by omega)
  have hfit : pos + 9 < 2 ^ 63 := by
    unfold len at hcap
    omega
  have h := WriteLenEncInt_window pre mid post pos i hpre (by omega) hi hfit
  rw [← hd, e1, e3] at h
  exact h

/-! ## Length-encoded integers: the cases of the decoder -/

theorem index_some (data : List Nat) (pos : Int) (h0 : 0 ≤ pos) (h1 : pos < len data) :
    ∃ b, index data pos = some b ∧ data[pos.toNat]? = some b := by
  have hr : 0 ≤ pos ∧ pos < len data := ⟨h0, h1⟩
  unfold len at h1
  have hlt : pos.toNat < data.length := by omega
  exact ⟨data[pos.toNat], by rw [index, if_pos hr, List.getElem?_eq_getElem hlt],
    List.getElem?_eq_getElem hlt⟩

/-- The result of `ReadLenEncInt` at a non-negative position, by cases on the
position and on the leading byte. -/
theorem ReadLenEncInt_cases (data : List Nat) (pos : Int) (hpos : 0 ≤ pos)
    (hlen : data.length < 2 ^ 62) :
    (len data ≤ pos ∧ ReadLenEncInt data pos = some (0, 0, false, false)) ∨
    ∃ m, index data pos = some m ∧ pos < len data ∧
      ((m = 0xfb ∧ ReadLenEncInt data pos = some (0, pos + 1, true, true)) ∨
       (m = 0xfc ∧ len data ≤ pos + 2 ∧ ReadLenEncInt data pos = some (0, 0, false, false)) ∨
       (m = 0xfc ∧ pos + 2 < len data ∧ ∃ b1 b2,
          index data (pos + 1) = some b1 ∧ index data (pos + 2) = some b2 ∧
          ReadLenEncInt data pos = some (b1 ||| shl64 b2 8, pos + 3, false, true)) ∨
       (m = 0xfd ∧ len data ≤ pos + 3 ∧ ReadLenEncInt data pos = some (0, 0, false, false)) ∨
       (m = 0xfd ∧ pos + 3 < len data ∧ ∃ b1 b2 b3,
          index data (pos + 1) = some b1 ∧ index data (pos + 2) = some b2 ∧
          index data (pos + 3) = some b3 ∧
          ReadLenEncInt data pos =
            some (b1 ||| shl64 b2 8 ||| shl64 b3 16, pos + 4, false, true)) ∨
       (m = 0xfe ∧ len data ≤ pos + 8 ∧ ReadLenEncInt data pos = some (0, 0, false, false)) ∨
       (m = 0xfe ∧ pos + 8 < len data ∧ ∃ b1 b2 b3 b4 b5 b6 b7 b8,
          index data (pos + 1) = some b1 ∧ index data (pos + 2) = some b2 ∧
          index data (pos + 3) = some b3 ∧ index data (pos + 4) = some b4 ∧
          index data (pos + 5) = some b5 ∧ index data (pos + 6) = some b6 ∧
          index data (pos + 7) = some b7 ∧ index data (pos + 8) = some b8 ∧
          ReadLenEncInt data pos =
            some (b1 ||| shl64 b2 8 ||| shl64 b3 16 ||| shl64 b4 24 ||| shl64 b5 32 |||
              shl64 b6 40 ||| shl64 b7 48 ||| shl64 b8 56, pos + 9, false, true)) ∨
       (m ≠ 0xfb ∧ m ≠ 0xfc ∧ m ≠ 0xfd ∧ m ≠ 0xfe ∧
          ReadLenEncInt data pos = some (m, pos + 1, false, true))) := by
  by_cases hge : pos ≥ len data
  · left
    exact ⟨hge, by rw [ReadLenEncInt, if_pos hge]⟩
  right
  have hlt : pos < len data := by omega
  have hl : len data < 2 ^ 62 := by
    unfold len
    exact_mod_cast hlen
  have ha : ∀ k : Int, 0 ≤ k → k ≤ 9 → addInt pos k = pos + k := fun k h0 h9 =>
    addInt_eq_add (by omega) (by omega)
  obtain ⟨m, hm, -⟩ := index_some data pos hpos hlt
  refine ⟨m, hm, hlt, ?_⟩
  unfold ReadLenEncInt
  rw [if_neg hge]
  simp only [bind, pure, hm, Option.some_bind, ha 1 (by omega) (by omega),
    ha 2 (by omega) (by omega), ha 3 (by omega) (by omega), ha 4 (by omega) (by omega),
    ha 5 (by omega) (by omega), ha 6 (by omega) (by omega), ha 7 (by omega) (by omega),
    ha 8 (by omega) (by omega), ha 9 (by omega) (by omega)]
  by_cases c1 : m = 0xfb
  · left
    exact ⟨c1, by rw [if_pos c1]⟩
  rw [if_neg c1]
  by_cases c2 : m = 0xfc
  · rw [if_pos c2]
    by_cases hc : pos + 2 ≥ len data
    · right; left
      exact ⟨c2, hc, by rw [if_pos hc]⟩
    · right; right; left
      obtain ⟨b1, h1, -⟩ := index_some data (pos + 1) (by omega) (by omega)
      obtain ⟨b2, h2, -⟩ := index_some data (pos + 2) (by omega) (by omega)
      exact ⟨c2, by omega, b1, b2, h1, h2, by rw [if_neg hc, h1, h2]; rfl⟩
  rw [if_neg c2]
  by_cases c3 : m = 0xfd
  · rw [if_pos c3]
    by_cases hc : pos + 3 ≥ len data
    · right; right; right; left
      exact ⟨c3, hc, by rw [if_pos hc]⟩
    · right; right; right; right; left
      obtain ⟨b1, h1, -⟩ := index_some data (pos + 1) (by omega) (by omega)
      obtain ⟨b2, h2, -⟩ := index_some data (pos + 2) (by omega) (by omega)
      obtain ⟨b3, h3, -⟩ := index_some data (pos + 3) (by omega) (by omega)
      exact ⟨c3, by omega, b1, b2, b3, h1, h2, h3, by rw [if_neg hc, h1, h2, h3]; rfl⟩
  rw [if_neg c3]
  by_cases c4 : m = 0xfe
  · rw [if_pos c4]
    by_cases hc : pos + 8 ≥ len data
    · right; right; right; right; right; left
      exact ⟨c4, hc, by rw [if_pos hc]⟩
    · right; right; right; right; right; right; left
      obtain ⟨b1, h1, -⟩ := index_some data (pos + 1) (by omega) (by omega)
      obtain ⟨b2, h2, -⟩ := index_some data (pos + 2) (by omega) (by omega)
      obtain ⟨b3, h3, -⟩ := index_some data (pos + 3) (by omega) (by omega)
      obtain ⟨b4, h4, -⟩ := index_some data (pos + 4) (by omega) (by omega)
      obtain ⟨b5, h5, -⟩ := index_some data (pos + 5) (by omega) (by omega)
      obtain ⟨b6, h6, -⟩ := index_some data (pos + 6) (by omega) (by omega)
      obtain ⟨b7, h7, -⟩ := index_some data (pos + 7) (by omega) (by omega)
      obtain ⟨b8, h8, -⟩ := index_some data (pos + 8) (by omega) (by omega)
      exact ⟨c4, by omega, b1, b2, b3, b4, b5, b6, b7, b8, h1, h2, h3, h4, h5, h6, h7, h8,
        by rw [if_neg hc, h1, h2, h3, h4, h5, h6, h7, h8]; rfl⟩
  rw [if_neg c4]
  right; right; right; right; right; right; right
  exact ⟨c1, c2, c3, c4, rfl⟩

/-- `ReadLenEncInt` at a non-negative position returns normally, and reports
success exactly when the leading byte and the bytes it announces are inside
the buffer. -/
theorem ReadLenEncInt_ok_iff (data : List Nat) (pos : Int) (hpos : 0 ≤ pos)
    (hlen : data.length < 2 ^ 62) :
    ∃ val p isNull ok, ReadLenEncInt data pos = some (val, p, isNull, ok) ∧
      (ok = true ↔ pos < len data ∧ ∃ m, index data pos = some m ∧
        pos + (if m = 0xFC then 3 else if m = 0xFD then 4 else if m = 0xFE then 9 else 1)
          ≤ len data) := by
  rcases ReadLenEncInt_cases data pos hpos hlen with ⟨h, hr⟩ | ⟨m, hm, hlt, hc⟩
  · exact ⟨_, _, _, _, hr, by simp; omega⟩
  · have key : ∀ (val : Nat) (p : Int) (isNull ok : Bool),
        ReadLenEncInt data pos = some (val, p, isNull, ok) →
        (ok = true ↔ pos + (if m = 0xFC then 3 else if m = 0xFD then 4
          else if m = 0xFE then 9 else 1) ≤ len data) →
        ∃ val p isNull ok, ReadLenEncInt data pos = some (val, p, isNull, ok) ∧
          (ok = true ↔ pos < len data ∧ ∃ m, index data pos = some m ∧
            pos + (if m = 0xFC then 3 else if m = 0xFD then 4
              else if m = 0xFE then 9 else 1) ≤ len data) := by
      intro val p isNull ok hr hiff
      refine ⟨val, p, isNull, ok, hr, hiff.trans ⟨fun h => ⟨hlt, m, hm, h⟩, ?_⟩⟩
      rintro ⟨-, m', hm', h⟩
      rw [hm] at hm'
      cases hm'
      exact h
    rcases hc with ⟨c, hr⟩ | ⟨c, h, hr⟩ | ⟨c, h, b1, b2, -, -, hr⟩ | ⟨c, h, hr⟩ |
      ⟨c, h, b1, b2, b3, -, -, -, hr⟩ | ⟨c, h, hr⟩ |
      ⟨c, h, b1, b2, b3, b4, b5, b6, b7, b8, -, -, -, -, -, -, -, -, hr⟩ |
      ⟨c1, c2, c3, c4, hr⟩
    · exact key _ _ _ _ hr (by subst c; simp; omega)
    · exact key _ _ _ _ hr (by subst c; simp; omega)
    · exact key _ _ _ _ hr (by subst c; simp; omega)
    · exact key _ _ _ _ hr (by subst c; simp; omega)
    · exact key _ _ _ _ hr (by subst c; simp; omega)
    · exact key _ _ _ _ hr (by subst c; simp; omega)
    · exact key _ _ _ _ hr (by subst c; simp; omega)
    · exact key _ _ _ _ hr (by rw [if_neg c2, if_neg c3, if_neg c4]; simp; omega)

/-- Every proper prefix of the encoding of `v` is rejected by `ReadLenEncInt`. -/
theorem ReadLenEncInt_truncated (v k : Nat) (hv : v < 2 ^ 64)
    (hk : (k : Int) < LenEncIntSize v) :
    ReadLenEncInt ((AppendLenEncInt [] v).take k) 0 = some (0, 0, false, false) := by
  unfold LenEncIntSize at hk
  unfold AppendLenEncInt append
  simp only [Nat.reduceShiftLeft] at hk
  split_ifs at hk with c1 c2 c3
  · rw [if_pos (by omega)]
    have : k = 0 := by omega
    subst this
    simp [ReadLenEncInt, len]
  · rw [if_neg (by omega), if_pos (by omega)]
    have : k < 3 := by omega
    interval_cases k <;> simp [ReadLenEncInt, index, len, addInt, wrapInt]
  · rw [if_neg (by omega), if_neg (by omega), if_pos (by omega)]
    have : k < 4 := by omega
    interval_cases k <;> simp [ReadLenEncInt, index, len, addInt, wrapInt]
  · rw [if_neg (by omega), if_neg (by omega), if_neg (by omega), if_pos (by omega)]
    have : k < 9 := by omega
    interval_cases k <;> simp [ReadLenEncInt, index, len, addInt, wrapInt]

/-! ## Strings: copying and slicing a window -/

theorem copyAt_window (pre mid post value : List Nat) (pos : Int)
    (hpos : pos = (pre.length : Int)) (hmid : mid.length = value.length) :
    copyAt (pre ++ mid ++ post) pos value = some (pre ++ value ++ post, (value.length : Int)) := by
  subst hpos
  have hs : sliceFrom (pre ++ mid ++ post) (pre.length : Int) = some (mid ++ post) := by
    unfold sliceFrom
    rw [List.append_assoc]
    have := slice_mid pre (mid ++ post) [] (pre.length : Int)
      (len (pre ++ (mid ++ post))) rfl (by simp [len])
    simpa using this
  have hn : min (mid.length + post.length) value.length = value.length := by omega
  have ht : List.take pre.length (pre ++ mid ++ post) = pre := by
    rw [List.append_assoc]
    exact List.take_left' rfl
  have hd : List.drop (pre.length + value.length) (pre ++ mid ++ post) = post := by
    rw [← hmid]
    exact List.drop_left' (by simp)
  unfold copyAt
  rw [hs]
  simp only [List.length_append, Int.toNat_ofNat, hn, List.take_length, ht, hd]

theorem uint64OfInt_natCast (n : Nat) (h : n < 2 ^ 64) : uint64OfInt (n : Int) = n := by
  unfold uint64OfInt
  omega

theorem intOfUint64_small (n : Nat) (h : n < 2 ^ 63) : intOfUint64 n = (n : Int) := by
  unfold intOfUint64
  exact wrapInt_eq_self (by omega) (by omega)

theorem LenEncStringSize_eq (value : List Nat) (h : value.length < 2 ^ 62) :
    LenEncStringSize value = LenEncIntSize value.length + (value.length : Int) := by
  have hs := LenEncIntSize_pos value.length
  unfold LenEncStringSize
  simp only
  rw [uint64OfInt_natCast _ (by omega), addInt_eq_add (by omega) (by omega)]

theorem writeEOFString_window (pre mid post value : List Nat) (pos : Int)
    (hpos : pos = (pre.length : Int)) (hmid : mid.length = value.length)
    (hfit : pos + value.length < 2 ^ 63) :
    writeEOFString (pre ++ mid ++ post) pos value =
      some (pre ++ value ++ post, pos + (value.length : Int)) := by
  unfold writeEOFString
  rw [copyAt_window pre mid post value pos hpos hmid]
  simp only [bind, pure, Option.some_bind]
  rw [addInt_eq_add (by omega) (by omega)]

/-- A buffer with room for two consecutive windows at `pos` splits around them. -/
theorem exists_two_windows (data : List Nat) (pos : Int) (n l : Nat) (h0 : 0 ≤ pos)
    (hcap : pos + n + l ≤ len data) :
    ∃ pre mid1 mid2 post, data = pre ++ mid1 ++ mid2 ++ post ∧ (pre.length : Int) = pos ∧
      mid1.length = n ∧ mid2.length = l := by
  obtain ⟨pre, mid, post, hd, hpre, hmid, -, -, -⟩ :=
    exists_window data pos (n + l) h0 (by push_cast; omega)
  refine ⟨pre, mid.take n, mid.drop n, post, ?_, hpre, ?_, ?_⟩
  · rw [List.append_assoc pre, List.take_append_drop, hd]
  · rw [List.length_take]
    omega
  · rw [List.length_drop]
    omega

/-- With room for the encoding, `WriteLenEncString` leaves the encoded length
followed by the bytes of the value at `pos`. -/
theorem WriteLenEncString_window (pre mid1 mid2 post value : List Nat) (pos : Int)
    (hpos : (pre.length : Int) = pos)
    (hmid1 : (mid1.length : Int) = LenEncIntSize value.length)
    (hmid2 : mid2.length = value.length) (hfit : pos + value.length + 9 < 2 ^ 63) :
    WriteLenEncString (pre ++ mid1 ++ mid2 ++ post) pos value =
      some (pre ++ AppendLenEncInt [] value.length ++ value ++ post,
        pos + LenEncIntSize value.length + (value.length : Int)) := by
  have hs := LenEncIntSize_pos value.length
  have hv : value.length < 2 ^ 64 := by omega
  unfold WriteLenEncString
  rw [uint64OfInt_natCast _ hv, List.append_assoc (pre ++ mid1),
    WriteLenEncInt_window pre mid1 (mid2 ++ post) pos _ hpos hmid1 hv (by omega)]
  simp only [bind, Option.some_bind]
  rw [← List.append_assoc (pre ++ AppendLenEncInt [] value.length),
    writeEOFString_window (pre ++ AppendLenEncInt [] value.length) mid2 post value _
      (by rw [List.length_append]; push_cast; rw [AppendLenEncInt_length [] _ hv]; simp; omega)
      hmid2 (by omega)]

/-- The three string decoders on a buffer that holds, at `pos`, the encoded
length of `value` followed by the bytes of `value`. -/
theorem readLenEncString_window (pre post value : List Nat) (pos : Int)
    (hpos : (pre.length : Int) = pos) (hfit : pos + value.length + 9 < 2 ^ 63) :
    readLenEncString (pre ++ AppendLenEncInt [] value.length ++ value ++ post) pos =
        some (value, pos + LenEncIntSize value.length + (value.length : Int), true) ∧
    ReadLenEncStringAsBytes (pre ++ AppendLenEncInt [] value.length ++ value ++ post) pos =
        some (value, pos + LenEncIntSize value.length + (value.length : Int), false, true) ∧
    skipLenEncString (pre ++ AppendLenEncInt [] value.length ++ value ++ post) pos =
        some (pos + LenEncIntSize value.length + (value.length : Int), true) := by
  have hs := LenEncIntSize_pos value.length
  have hv : value.length < 2 ^ 64 := by omega
  have hr := ReadLenEncInt_window pre (value ++ post) pos value.length hpos hv (by omega)
  rw [← List.append_assoc] at hr
  have hl := AppendLenEncInt_length [] value.length hv
  simp only [List.length_nil, Int.Nat.cast_ofNat_Int, zero_add, Nat.cast_zero] at hl
  have hi := intOfUint64_small value.length (by omega)
  have hadd : addInt (pos + LenEncIntSize value.length) (value.length : Int) =
      pos + LenEncIntSize value.length + (value.length : Int) :=
    addInt_eq_add (by omega) (by omega)
  have hsub : subInt (pos + LenEncIntSize value.length + (value.length : Int)) 1 =
      pos + LenEncIntSize value.length + (value.length : Int) - 1 :=
    subInt_eq_sub (by omega) (by omega)
  have hlen : len (pre ++ AppendLenEncInt [] value.length ++ value ++ post) =
      pos + LenEncIntSize value.length + (value.length : Int) + (post.length : Int) := by
    simp only [len, List.length_append]
    push_cast
    rw [hl, hpos]
  have hcond : ¬ (pos + LenEncIntSize value.length + (value.length : Int) - 1 ≥
      len (pre ++ AppendLenEncInt [] value.length ++ value ++ post)) := by
    rw [hlen]
    omega
  have hsl := slice_mid (pre ++ AppendLenEncInt [] value.length) value post
    (pos + LenEncIntSize value.length)
    (pos + LenEncIntSize value.length + (value.length : Int))
    (by rw [List.length_append]; push_cast; rw [hl, hpos])
    (by rw [List.length_append]; push_cast; rw [hl, hpos])
  refine ⟨?_, ?_, ?_⟩
  · unfold readLenEncString
    rw [hr]
    simp only [bind, pure, Option.some_bind, Bool.not_true, Bool.false_eq_true, if_false,
      hi, hadd, hsub, if_neg hcond, hsl]
  · unfold ReadLenEncStringAsBytes
    rw [hr]
    simp only [bind, pure, Option.some_bind, Bool.not_true, Bool.false_eq_true, if_false,
      hi, hadd, hsub, if_neg hcond, hsl]
  · unfold skipLenEncString
    rw [hr]
    simp only [bind, pure, Option.some_bind, Bool.not_true, Bool.false_eq_true, if_false,
      hi, hadd, hsub, if_neg hcond]

/-! ## NUL-terminated strings -/

theorem IndexByte_append (value rest : List Nat) (c : Nat) (h : ∀ b ∈ value, b ≠ c) :
    IndexByte (value ++ c :: rest) c = (value.length : Int) := by
  induction value with
  | nil => simp [IndexByte]
  | cons b bs ih =>
    have hb : b ≠ c := h b (List.mem_cons_self _ _)
    have ih' := ih (fun x hx => h x (List.mem_cons_of_mem _ hx))
    have hne : ¬ ((bs.length : Int) = -1) := by omega
    rw [List.cons_append, IndexByte, if_neg hb]
    simp only [ih', if_neg hne, List.length_cons]
    push_cast
    rfl

theorem WriteNullString_window (pre mid post value : List Nat) (x : Nat) (pos : Int)
    (hpos : pos = (pre.length : Int)) (hmid : mid.length = value.length)
    (hfit : pos + value.length + 1 < 2 ^ 63) :
    WriteNullString (pre ++ mid ++ x :: post) pos value =
      some (pre ++ value ++ 0 :: post, pos + (value.length : Int) + 1) := by
  unfold WriteNullString
  rw [copyAt_window pre mid (x :: post) value pos hpos hmid]
  simp only [bind, pure, Option.some_bind]
  rw [addInt_eq_add (by omega) (by omega), addInt_eq_add (by omega) (by omega)]
  have hst := store_mid (pre ++ value) [x] post 0 (pos + (value.length : Int)) 0
    (by rw [List.length_append]; push_cast; omega) (by simp)
  simp only [List.append_assoc, List.singleton_append, List.set_cons_zero] at hst ⊢
  rw [hst]
  rfl

theorem ReadNullString_window (pre post value : List Nat) (pos : Int)
    (hpos : pos = (pre.length : Int)) (hnz : ∀ b ∈ value, b ≠ 0)
    (hfit : pos + value.length + 1 < 2 ^ 63) :
    ReadNullString (pre ++ value ++ 0 :: post) pos =
      some (value, pos + (value.length : Int) + 1, true) := by
  have hs : sliceFrom (pre ++ value ++ 0 :: post) pos = some (value ++ 0 :: post) := by
    unfold sliceFrom
    rw [List.append_assoc]
    have := slice_mid pre (value ++ 0 :: post) [] pos
      (len (pre ++ (value ++ 0 :: post))) hpos (by simp [len])
    simpa using this
  have hsl := slice_mid pre value (0 :: post) pos (pos + (value.length : Int)) hpos
    (by omega)
  have hne : ¬ ((value.length : Int) = -1) := by omega
  unfold ReadNullString
  rw [hs]
  simp only [bind, pure, Option.some_bind, IndexByte_append value post 0 hnz, if_neg hne]
  rw [addInt_eq_add (by omega) (by omega), addInt_eq_add (by omega) (by omega), hsl]
  rfl

/-! ## Fixed-width integers -/

theorem shl16_eq_mul {b : Nat} (hb : b < 256) : shl16 b 8 = b * 2 ^ 8 := by
  unfold shl16
  rw [Nat.shiftLeft_eq]
  exact Nat.mod_eq_of_lt (by omega)

theorem shl32_eq_mul {b k : Nat} (hb : b < 256) (hk : k ≤ 24) : shl32 b k = b * 2 ^ k := by
  unfold shl32
  rw [Nat.shiftLeft_eq]
  apply Nat.mod_eq_of_lt
  calc b * 2 ^ k < 256 * 2 ^ k := Nat.mul_lt_mul_of_pos_right hb (Nat.pow_pos (by decide))
    _ ≤ 256 * 2 ^ 24 := Nat.mul_le_mul_left _ (Nat.pow_le_pow_right (by decide) hk)
    _ = 2 ^ 32 := by norm_num

theorem or_shl32_eq_add {x b k : Nat} (hx : x < 2 ^ k) (hb : b < 256) (hk : k ≤ 24) :
    x ||| shl32 b k = x + b * 2 ^ k := by
  rw [shl32_eq_mul hb hk, ← Nat.shiftLeft_eq, or_shiftLeft_eq_add b hx, Nat.shiftLeft_eq]

/-- The little-endian bytes of a 16-bit value compose back to it. -/
theorem bytes16_compose {v : Nat} (hv : v < 2 ^ 16) :
    byteOf v ||| shl16 (byteOf (v >>> 8)) 8 = v := by
  have h0 := byteOf_lt v
  rw [shl16_eq_mul (byteOf_lt _), ← Nat.shiftLeft_eq,
    or_shiftLeft_eq_add _ (by omega : byteOf v < 2 ^ 8)]
  simp only [byteOf, Nat.shiftRight_eq_div_pow]
  omega

/-- The little-endian bytes of a 32-bit value compose back to it. -/
theorem bytes32_compose {v : Nat} (hv : v < 2 ^ 32) :
    byteOf v ||| shl32 (byteOf (v >>> 8)) 8 ||| shl32 (byteOf (v >>> 16)) 16 |||
      shl32 (byteOf (v >>> 24)) 24 = v := by
  have h0 := byteOf_lt v
  have h1 := byteOf_lt (v >>> 8)
  have h2 := byteOf_lt (v >>> 16)
  have e1 : byteOf v ||| shl32 (byteOf (v >>> 8)) 8 = byteOf v + byteOf (v >>> 8) * 2 ^ 8 :=
    or_shl32_eq_add (by omega) h1 (by omega)
  have e2 : byteOf v + byteOf (v >>> 8) * 2 ^ 8 ||| shl32 (byteOf (v >>> 16)) 16 =
      byteOf v + byteOf (v >>> 8) * 2 ^ 8 + byteOf (v >>> 16) * 2 ^ 16 :=
    or_shl32_eq_add (by omega) h2 (by omega)
  rw [e1, e2, or_shl32_eq_add (by omega) (byteOf_lt _) (by omega)]
  simp only [byteOf, Nat.shiftRight_eq_div_pow]
  omega

theorem addInt_small (pos k : Int) (hpos : 0 ≤ pos) (hfit : pos + 9 < 2 ^ 63) (h0 : 0 ≤ k)
    (h9 : k ≤ 9) : addInt pos k = pos + k :=
  addInt_eq_add (by omega) (by omega)

theorem WriteUint16_window (pre mid post : List Nat) (pos : Int) (v : Nat)
    (hpos : (pre.length : Int) = pos) (hmid : mid.length = 2) (hfit : pos + 9 < 2 ^ 63) :
    WriteUint16 (pre ++ mid ++ post) pos v =
      some (pre ++ [byteOf v, byteOf (v >>> 8)] ++ post, pos + 2) := by
  have ha := addInt_small pos
  obtain ⟨x0, x1, rfl⟩ := List.length_eq_two.mp hmid
  unfold WriteUint16
  simp only [bind, pure, ha 1 (by omega) hfit (by omega) (by omega),
    ha 2 (by omega) hfit (by omega) (by omega)]
  rw [store_mid pre _ post 0 _ _ (by omega) (by simp), Option.some_bind,
    store_mid pre _ post 1 _ _ (by omega) (by simp), Option.some_bind]
  simp

theorem WriteUint32_window (pre mid post : List Nat) (pos : Int) (v : Nat)
    (hpos : (pre.length : Int) = pos) (hmid : mid.length = 4) (hfit : pos + 9 < 2 ^ 63) :
    WriteUint32 (pre ++ mid ++ post) pos v =
      some (pre ++ [byteOf v, byteOf (v >>> 8), byteOf (v >>> 16), byteOf (v >>> 24)] ++ post,
        pos + 4) := by
  have ha := addInt_small pos
  rcases mid with _ | ⟨x0, _ | ⟨x1, _ | ⟨x2, _ | ⟨x3, _ | ⟨x4, t⟩⟩⟩⟩⟩ <;> simp at hmid
  unfold WriteUint32
  simp only [bind, pure, ha 1 (by omega) hfit (by omega) (by omega),
    ha 2 (by omega) hfit (by omega) (by omega), ha 3 (by omega) hfit (by omega) (by omega),
    ha 4 (by omega) hfit (by omega) (by omega)]
  rw [store_mid pre _ post 0 _ _ (by omega) (by simp), Option.some_bind,
    store_mid pre _ post 1 _ _ (by omega) (by simp), Option.some_bind,
    store_mid pre _ post 2 _ _ (by omega) (by simp), Option.some_bind,
    store_mid pre _ post 3 _ _ (by omega) (by simp), Option.some_bind]
  simp

theorem WriteUint64_window (pre mid post : List Nat) (pos : Int) (v : Nat)
    (hpos : (pre.length : Int) = pos) (hmid : mid.length = 8) (hfit : pos + 9 < 2 ^ 63) :
    WriteUint64 (pre ++ mid ++ post) pos v =
      some (pre ++ [byteOf v, byteOf (v >>> 8), byteOf (v >>> 16), byteOf (v >>> 24),
        byteOf (v >>> 32), byteOf (v >>> 40), byteOf (v >>> 48), byteOf (v >>> 56)] ++ post,
        pos + 8) := by
  have ha := addInt_small pos
  rcases mid with _ | ⟨x0, _ | ⟨x1, _ | ⟨x2, _ | ⟨x3, _ | ⟨x4, _ | ⟨x5, _ | ⟨x6,
    _ | ⟨x7, _ | ⟨x8, t⟩⟩⟩⟩⟩⟩⟩⟩⟩ <;> simp at hmid
  unfold WriteUint64
  simp only [bind, pure, ha 1 (by omega) hfit (by omega) (by omega),
    ha 2 (by omega) hfit (by omega) (by omega), ha 3 (by omega) hfit (by omega) (by omega),
    ha 4 (by omega) hfit (by omega) (by omega), ha 5 (by omega) hfit (by omega) (by omega),
    ha 6 (by omega) hfit (by omega) (by omega), ha 7 (by omega) hfit (by omega) (by omega),
    ha 8 (by omega) hfit (by omega) (by omega)]
  rw [store_mid pre _ post 0 _ _ (by omega) (by simp), Option.some_bind,
    store_mid pre _ post 1 _ _ (by omega) (by simp), Option.some_bind,
    store_mid pre _ post 2 _ _ (by omega) (by simp), Option.some_bind,
    store_mid pre _ post 3 _ _ (by omega) (by simp), Option.some_bind,
    store_mid pre _ post 4 _ _ (by omega) (by simp), Option.some_bind,
    store_mid pre _ post 5 _ _ (by omega) (by simp), Option.some_bind,
    store_mid pre _ post 6 _ _ (by omega) (by simp), Option.some_bind,
    store_mid pre _ post 7 _ _ (by omega) (by simp), Option.some_bind]
  simp

theorem ReadUint16_window (pre post : List Nat) (pos : Int) (a b : Nat)
    (hpos : (pre.length : Int) = pos) (hfit : pos + 9 < 2 ^ 63) :
    ReadUint16 (pre ++ [a, b] ++ post) pos = some (a ||| shl16 b 8, pos + 2, true) := by
  have ha := fun k => addInt_small pos k (by omega) hfit
  have hc : ¬ (pos + 1 ≥ len (pre ++ [a, b] ++ post)) := by
    simp only [len, List.length_append, List.length_cons, List.length_nil]
    push_cast
    omega
  unfold ReadUint16
  rw [ha 1 (by omega) (by omega), ha 2 (by omega) (by omega), if_neg hc,
    slice_mid pre [a, b] post pos (pos + 2) hpos.symm (by rw [hpos]; rfl)]
  rfl

theorem ReadUint32_window (pre post : List Nat) (pos : Int) (a b c d : Nat)
    (hpos : (pre.length : Int) = pos) (hfit : pos + 9 < 2 ^ 63) :
    ReadUint32 (pre ++ [a, b, c, d] ++ post) pos =
      some (a ||| shl32 b 8 ||| shl32 c 16 ||| shl32 d 24, pos + 4, true) := by
  have ha := fun k => addInt_small pos k (by omega) hfit
  have hc : ¬ (pos + 3 ≥ len (pre ++ [a, b, c, d] ++ post)) := by
    simp only [len, List.length_append, List.length_cons, List.length_nil]
    push_cast
    omega
  unfold ReadUint32
  rw [ha 3 (by omega) (by omega), ha 4 (by omega) (by omega), if_neg hc,
    slice_mid pre [a, b, c, d] post pos (pos + 4) hpos.symm (by rw [hpos]; rfl)]
  rfl

theorem ReadUint64_window (pre post : List Nat) (pos : Int) (a b c d e f g h : Nat)
    (hpos : (pre.length : Int) = pos) (hfit : pos + 9 < 2 ^ 63) :
    ReadUint64 (pre ++ [a, b, c, d, e, f, g, h] ++ post) pos =
      some (a ||| shl64 b 8 ||| shl64 c 16 ||| shl64 d 24 ||| shl64 e 32 ||| shl64 f 40 |||
        shl64 g 48 ||| shl64 h 56, pos + 8, true) := by
  have ha := fun k => addInt_small pos k (by omega) hfit
  have hc : ¬ (pos + 7 ≥ len (pre ++ [a, b, c, d, e, f, g, h] ++ post)) := by
    simp only [len, List.length_append, List.length_cons, List.length_nil]
    push_cast
    omega
  unfold ReadUint64
  rw [ha 7 (by omega) (by omega), ha 8 (by omega) (by omega), if_neg hc,
    slice_mid pre [a, b, c, d, e, f, g, h] post pos (pos + 8) hpos.symm (by rw [hpos]; rfl)]
  rfl

theorem AppendUint16_eq (data : List Nat) (n : Nat) :
    AppendUint16 data n = data ++ [byteOf n, byteOf (n >>> 8)] := by
  simp [AppendUint16, append]

theorem AppendUint32_eq (data : List Nat) (n : Nat) :
    AppendUint32 data n =
      data ++ [byteOf n, byteOf (n >>> 8), byteOf (n >>> 16), byteOf (n >>> 24)] := by
  simp [AppendUint32, append]

theorem AppendUint64_eq (data : List Nat) (n : Nat) :
    AppendUint64 data n =
      data ++ [byteOf n, byteOf (n >>> 8), byteOf (n >>> 16), byteOf (n >>> 24),
        byteOf (n >>> 32), byteOf (n >>> 40), byteOf (n >>> 48), byteOf (n >>> 56)] := by
  simp [AppendUint64, append]

/-! ## Claims: length-encoded integers -/

/-- C1. Length-encoded integer round trip: for every unsigned 64-bit value `v`,
every buffer `data` and position `pos` with `0 <= pos` and
`pos + LenEncIntSize(v) <= len(data)`, `WriteLenEncInt(data, pos, v)` returns
`n = pos + LenEncIntSize(v)` and on the buffer it leaves `ReadLenEncInt` at `pos`
returns `(v, n, isNull=false, ok=true)`. -/
theorem C1_lenEncInt_round_trip (data : List Nat) (pos : Int) (v : Nat) (hv : v < 2 ^ 64)
    (hpos : 0 ≤ pos) (hcap : pos + LenEncIntSize v ≤ len data)
    (hlen : data.length < 2 ^ 62) :
    ∃ data', WriteLenEncInt data pos v = some (data', pos + LenEncIntSize v) ∧
      ReadLenEncInt data' pos = some (v, pos + LenEncIntSize v, false, true) := by
  refine ⟨_, WriteLenEncInt_spec data pos v hv hpos hcap hlen, ?_⟩
  have hs := LenEncIntSize_pos v
  unfold len at hcap
  exact ReadLenEncInt_window _ _ pos v (by rw [List.length_take]; omega) hv (by omega)

/-- C1 at the boundary values `0`, `250`, `251`, `65535`, `65536`, `16777215`,
`16777216` and `2^64 - 1`, written at position 2 of a 12-byte buffer. -/
theorem C1_lenEncInt_round_trip_witness :
    (∃ data', WriteLenEncInt (List.replicate 12 7) 2 0 =
        some (data', 2 + LenEncIntSize 0) ∧
      ReadLenEncInt data' 2 = some (0, 2 + LenEncIntSize 0, false, true)) ∧
    (∃ data', WriteLenEncInt (List.replicate 12 7) 2 250 =
        some (data', 2 + LenEncIntSize 250) ∧
      ReadLenEncInt data' 2 = some (250, 2 + LenEncIntSize 250, false, true)) ∧
    (∃ data', WriteLenEncInt (List.replicate 12 7) 2 251 =
        some (data', 2 + LenEncIntSize 251) ∧
      ReadLenEncInt data' 2 = some (251, 2 + LenEncIntSize 251, false, true)) ∧
    (∃ data', WriteLenEncInt (List.replicate 12 7) 2 65535 =
        some (data', 2 + LenEncIntSize 65535) ∧
      ReadLenEncInt data' 2 = some (65535, 2 + LenEncIntSize 65535, false, true)) ∧
    (∃ data', WriteLenEncInt (List.replicate 12 7) 2 65536 =
        some (data', 2 + LenEncIntSize 65536) ∧
      ReadLenEncInt data' 2 = some (65536, 2 + LenEncIntSize 65536, false, true)) ∧
    (∃ data', WriteLenEncInt (List.replicate 12 7) 2 16777215 =
        some (data', 2 + LenEncIntSize 16777215) ∧
      ReadLenEncInt data' 2 = some (16777215, 2 + LenEncIntSize 16777215, false, true)) ∧
    (∃ data', WriteLenEncInt (List.replicate 12 7) 2 16777216 =
        some (data', 2 + LenEncIntSize 16777216) ∧
      ReadLenEncInt data' 2 = some (16777216, 2 + LenEncIntSize 16777216, false, true)) ∧
    (∃ data', WriteLenEncInt (List.replicate 12 7) 2 (2 ^ 64 - 1) =
        some (data', 2 + LenEncIntSize (2 ^ 64 - 1)) ∧
      ReadLenEncInt data' 2 = some ((2 ^ 64 - 1), 2 + LenEncIntSize (2 ^ 64 - 1), false, true)) :=
  ⟨C1_lenEncInt_round_trip (List.replicate 12 7) 2 0 (by decide) (by decide) (by decide)
      (by decide),
    C1_lenEncInt_round_trip (List.replicate 12 7) 2 250 (by decide) (by decide) (by decide)
      (by decide),
    C1_lenEncInt_round_trip (List.replicate 12 7) 2 251 (by decide) (by decide) (by decide)
      (by decide),
    C1_lenEncInt_round_trip (List.replicate 12 7) 2 65535 (by decide) (by decide) (by decide)
      (by decide),
    C1_lenEncInt_round_trip (List.replicate 12 7) 2 65536 (by decide) (by decide) (by decide)
      (by decide),
    C1_lenEncInt_round_trip (List.replicate 12 7) 2 16777215 (by decide) (by decide) (by decide)
      (by decide),
    C1_lenEncInt_round_trip (List.replicate 12 7) 2 16777216 (by decide) (by decide) (by decide)
      (by decide),
    C1_lenEncInt_round_trip (List.replicate 12 7) 2 (2 ^ 64 - 1) (by decide) (by decide) (by decide)
      (by decide)⟩

/-- C2. Bit-exact length-encoded integer format: given room for the encoding,
the bytes `WriteLenEncInt` writes from `pos` on, `data[pos:n]` for the returned
`n`, are `[v]` when `v < 251`; `[0xFC, b0, b1]` when `251 <= v < 2^16`;
`[0xFD, b0, b1, b2]` when `2^16 <= v < 2^24`; and `[0xFE, b0, ..., b7]`
otherwise, where `bk = (v >> 8k) mod 256`. The first byte written is never
`0xFB` or `0xFF`, and encoding 300 gives `{0xFC, 0x2C, 0x01}`. -/
theorem C2_lenEncInt_format (data : List Nat) (pos : Int) (v : Nat) (hv : v < 2 ^ 64)
    (hpos : 0 ≤ pos) (hcap : pos + LenEncIntSize v ≤ len data)
    (hlen : data.length < 2 ^ 62) :
    (∃ data' n, WriteLenEncInt data pos v = some (data', n) ∧
      (v < 251 → slice data' pos n = some [v]) ∧
      (251 ≤ v → v < 2 ^ 16 → slice data' pos n = some [0xFC, v % 256, v >>> 8 % 256]) ∧
      (2 ^ 16 ≤ v → v < 2 ^ 24 →
        slice data' pos n = some [0xFD, v % 256, v >>> 8 % 256, v >>> 16 % 256]) ∧
      (2 ^ 24 ≤ v →
        slice data' pos n = some [0xFE, v % 256, v >>> 8 % 256, v >>> 16 % 256,
          v >>> 24 % 256, v >>> 32 % 256, v >>> 40 % 256, v >>> 48 % 256, v >>> 56 % 256]) ∧
      (∃ b, index data' pos = some b ∧ b ≠ 0xFB ∧ b ≠ 0xFF)) ∧
    WriteLenEncInt [0, 0, 0] 0 300 = some ([0xFC, 0x2C, 0x01], 3) := by
  refine ⟨⟨_, _, WriteLenEncInt_spec data pos v hv hpos hcap hlen, ?_⟩, by decide⟩
  have hs := LenEncIntSize_pos v
  have hl := AppendLenEncInt_length [] v hv
  unfold len at hcap
  have hpre : ((data.take pos.toNat).length : Int) = pos := by
    rw [List.length_take]
    omega
  have hsl := slice_mid (data.take pos.toNat) (AppendLenEncInt [] v)
    (data.drop (pos.toNat + (LenEncIntSize v).toNat)) pos (pos + LenEncIntSize v)
    hpre.symm (by rw [hl, hpre]; simp)
  have hix := index_mid (data.take pos.toNat) (AppendLenEncInt [] v)
    (data.drop (pos.toNat + (LenEncIntSize v).toNat)) 0 pos (by rw [hpre]; simp)
    (by simp only [List.length_nil] at hl; omega)
  rw [hsl, hix]
  unfold AppendLenEncInt append byteOf
  refine ⟨fun h => ?_, fun h1 h2 => ?_, fun h1 h2 => ?_, fun h => ?_, ?_⟩
  · rw [if_pos (by omega), List.nil_append, Nat.mod_eq_of_lt (by omega)]
  · rw [if_neg (by omega), if_pos (by omega), List.nil_append]
  · rw [if_neg (by omega), if_neg (by omega), if_pos (by omega), List.nil_append]
  · rw [if_neg (by omega), if_neg (by omega), if_neg (by omega), if_pos (by omega),
      List.nil_append]
  · split_ifs with c1 c2 c3 c4
    · exact ⟨v % 256, by simp, by omega, by omega⟩
    · exact ⟨0xFC, by simp, by decide, by decide⟩
    · exact ⟨0xFD, by simp, by decide, by decide⟩
    · exact ⟨0xFE, by simp, by decide, by decide⟩
    · omega

/-- C2 at the value 300 written into a 3-byte buffer. -/
theorem C2_lenEncInt_format_witness :
    (∃ data' n, WriteLenEncInt [0, 0, 0] 0 300 = some (data', n) ∧
      (300 < 251 → slice data' 0 n = some [300]) ∧
      (251 ≤ 300 → 300 < 2 ^ 16 → slice data' 0 n = some [0xFC, 300 % 256, 300 >>> 8 % 256]) ∧
      (2 ^ 16 ≤ 300 → 300 < 2 ^ 24 →
        slice data' 0 n = some [0xFD, 300 % 256, 300 >>> 8 % 256, 300 >>> 16 % 256]) ∧
      (2 ^ 24 ≤ 300 →
        slice data' 0 n = some [0xFE, 300 % 256, 300 >>> 8 % 256, 300 >>> 16 % 256,
          300 >>> 24 % 256, 300 >>> 32 % 256, 300 >>> 40 % 256, 300 >>> 48 % 256,
          300 >>> 56 % 256]) ∧
      (∃ b, index data' 0 = some b ∧ b ≠ 0xFB ∧ b ≠ 0xFF)) ∧
    WriteLenEncInt [0, 0, 0] 0 300 = some ([0xFC, 0x2C, 0x01], 3) :=
  C2_lenEncInt_format [0, 0, 0] 0 300 (by decide) (by decide) (by decide) (by decide)

/-- C5. Truncation safety of `ReadLenEncInt`: on the first `k` bytes of the
encoding of `v`, for `k < LenEncIntSize(v)`, it returns normally with
`ok=false`; and on every buffer at every `pos >= 0` it returns normally, with
`ok=true` exactly when `pos < len(data)` and `pos + w <= len(data)`, where `w`
is 3, 4, 9 for the leading byte `0xFC`, `0xFD`, `0xFE` and 1 for any other. -/
theorem C5_readLenEncInt_truncation (v k : Nat) (data : List Nat) (pos : Int)
    (hv : v < 2 ^ 64) (hk : (k : Int) < LenEncIntSize v) (hpos : 0 ≤ pos)
    (hlen : data.length < 2 ^ 62) :
    (∃ val p isNull,
      ReadLenEncInt ((AppendLenEncInt [] v).take k) 0 = some (val, p, isNull, false)) ∧
    (∃ val p isNull ok, ReadLenEncInt data pos = some (val, p, isNull, ok) ∧
      (ok = true ↔ pos < len data ∧ ∃ m, index data pos = some m ∧
        pos + (if m = 0xFC then 3 else if m = 0xFD then 4 else if m = 0xFE then 9 else 1)
          ≤ len data)) :=
  ⟨⟨0, 0, false, ReadLenEncInt_truncated v k hv hk⟩, ReadLenEncInt_ok_iff data pos hpos hlen⟩

/-- C5 at the first 8 bytes of the 9-byte encoding of `2^64 - 1`, and at the
buffer `{0xFC, 0x01}`, whose marker announces a byte that is missing. -/
theorem C5_readLenEncInt_truncation_witness :
    (∃ val p isNull,
      ReadLenEncInt ((AppendLenEncInt [] (2 ^ 64 - 1)).take 8) 0 =
        some (val, p, isNull, false)) ∧
    (∃ val p isNull ok, ReadLenEncInt [0xFC, 0x01] 0 = some (val, p, isNull, ok) ∧
      (ok = true ↔ (0 : Int) < len [0xFC, 0x01] ∧ ∃ m, index [0xFC, 0x01] 0 = some m ∧
        0 + (if m = 0xFC then 3 else if m = 0xFD then 4 else if m = 0xFE then 9 else 1)
          ≤ len [0xFC, 0x01])) :=
  C5_readLenEncInt_truncation (2 ^ 64 - 1) 8 [0xFC, 0x01] 0 (by decide) (by decide) (by decide)
    (by decide)

/-- C6. NULL sentinel of `ReadLenEncInt`: at a position inside the buffer, the
leading byte `0xFB` gives `(0, pos+1, isNull=true, ok=true)` and the leading
byte `0x00` gives `(0, pos+1, isNull=false, ok=true)`; and `isNull=true` is
returned only when the leading byte is `0xFB`. -/
theorem C6_readLenEncInt_null (data : List Nat) (pos : Int) (hpos : 0 ≤ pos)
    (hlen : data.length < 2 ^ 62) :
    (pos < len data → index data pos = some 0xFB →
      ReadLenEncInt data pos = some (0, pos + 1, true, true)) ∧
    (pos < len data → index data pos = some 0x00 →
      ReadLenEncInt data pos = some (0, pos + 1, false, true)) ∧
    (∀ val p ok, ReadLenEncInt data pos = some (val, p, true, ok) →
      pos < len data ∧ index data pos = some 0xFB) := by
  rcases ReadLenEncInt_cases data pos hpos hlen with ⟨h, hr⟩ | ⟨m, hm, hlt, hc⟩
  · refine ⟨fun h' => by omega, fun h' => by omega, fun val p ok hv => ?_⟩
    rw [hr] at hv
    simp at hv
  · rcases hc with ⟨c, hr⟩ | ⟨c, h, hr⟩ | ⟨c, h, b1, b2, -, -, hr⟩ | ⟨c, h, hr⟩ |
      ⟨c, h, b1, b2, b3, -, -, -, hr⟩ | ⟨c, h, hr⟩ |
      ⟨c, h, b1, b2, b3, b4, b5, b6, b7, b8, -, -, -, -, -, -, -, -, hr⟩ |
      ⟨c1, c2, c3, c4, hr⟩
    all_goals
      refine ⟨fun _ hb => ?_, fun _ hz => ?_, fun val p ok hv => ?_⟩
      · rw [hm] at hb
        simp at hb
        subst hb
        first | exact hr | omega
      · rw [hm] at hz
        simp at hz
        subst hz
        first | exact hr | omega
      · rw [hr] at hv
        first | (simp at hv; done) | exact ⟨hlt, by rw [hm, c]⟩

/-- C6 at the two-byte buffer `{0xFB, 0x00}`, read at position 0. -/
theorem C6_readLenEncInt_null_witness :
    ((0 : Int) < len [0xFB, 0x00] → index [0xFB, 0x00] 0 = some 0xFB →
      ReadLenEncInt [0xFB, 0x00] 0 = some (0, 0 + 1, true, true)) ∧
    ((0 : Int) < len [0xFB, 0x00] → index [0xFB, 0x00] 0 = some 0x00 →
      ReadLenEncInt [0xFB, 0x00] 0 = some (0, 0 + 1, false, true)) ∧
    (∀ val p ok, ReadLenEncInt [0xFB, 0x00] 0 = some (val, p, true, ok) →
      (0 : Int) < len [0xFB, 0x00] ∧ index [0xFB, 0x00] 0 = some 0xFB) :=
  C6_readLenEncInt_null [0xFB, 0x00] 0 (by decide) (by decide)

/-! ## Claims: strings -/

/-- C3. Decoding a length-encoded string: on the 9-byte buffer whose prefix
`0xFE 0xFF ... 0xFF` declares the length `2^64 - 1`, both
`ReadLenEncStringAsBytes` and `readLenEncString` panic at position 0 (the
length converts to the `int` -1, passes the bounds check and reaches the slice
expression `data[9:8]`). -/
theorem C3_readLenEncString_panics :
    ReadLenEncInt [0xFE, 0xFF, 0xFF, 0xFF, 0xFF, 0xFF, 0xFF, 0xFF, 0xFF] 0 =
      some (2 ^ 64 - 1, 9, false, true) ∧
    intOfUint64 (2 ^ 64 - 1) = -1 ∧
    ReadLenEncStringAsBytes [0xFE, 0xFF, 0xFF, 0xFF, 0xFF, 0xFF, 0xFF, 0xFF, 0xFF] 0 = none ∧
    readLenEncString [0xFE, 0xFF, 0xFF, 0xFF, 0xFF, 0xFF, 0xFF, 0xFF, 0xFF] 0 = none := by
  decide

/-- C4. Cursor of `skipLenEncString`: on the 9-byte buffer whose prefix
`0xFE 0xF6 0xFF ... 0xFF` declares the length `2^64 - 10`, it reports
`ok=true` at position 0 with the next position -1, which is negative and
before the input position. -/
theorem C4_skipLenEncString_backwards :
    skipLenEncString [0xFE, 0xF6, 0xFF, 0xFF, 0xFF, 0xFF, 0xFF, 0xFF, 0xFF] 0 =
      some (-1, true) := by
  decide

/-- C7. Length-encoded string round trip: for every string `value`, every
buffer `data` and position `pos >= 0` with
`pos + LenEncStringSize(value) <= len(data)`, `WriteLenEncString` returns
`n = pos + LenEncStringSize(value)`, and on the buffer it leaves
`readLenEncString` at `pos` returns `(value, n, true)` and
`ReadLenEncStringAsBytes` returns `(value, n, isNull=false, ok=true)`. -/
theorem C7_lenEncString_round_trip (data value : List Nat) (pos : Int) (hpos : 0 ≤ pos)
    (hval : value.length < 2 ^ 62)
    (hcap : pos + LenEncStringSize value ≤ len data) (hlen : data.length < 2 ^ 62) :
    ∃ data', WriteLenEncString data pos value = some (data', pos + LenEncStringSize value) ∧
      readLenEncString data' pos = some (value, pos + LenEncStringSize value, true) ∧
      ReadLenEncStringAsBytes data' pos =
        some (value, pos + LenEncStringSize value, false, true) := by
  have hs := LenEncIntSize_pos value.length
  rw [LenEncStringSize_eq value hval] at hcap ⊢
  have hl : len data < 2 ^ 62 := by
    unfold len
    exact_mod_cast hlen
  obtain ⟨pre, mid1, mid2, post, rfl, hpre, hm1, hm2⟩ :=
    exists_two_windows data pos (LenEncIntSize value.length).toNat value.length hpos
      (by rw [Int.toNat_of_nonneg (by omega)]; omega)
  have hw := WriteLenEncString_window pre mid1 mid2 post value pos hpre (by omega) hm2
    (by omega)
  have hr := readLenEncString_window pre post value pos hpre (by omega)
  exact ⟨_, by rw [hw, Int.add_assoc], by rw [hr.1, Int.add_assoc], by rw [hr.2.1, Int.add_assoc]⟩

/-- C7 at the empty string, at `"ab"` and at a string of 251 bytes. -/
theorem C7_lenEncString_round_trip_witness :
    (∃ data', WriteLenEncString [7, 7, 7] 1 [] = some (data', 1 + LenEncStringSize []) ∧
      readLenEncString data' 1 = some ([], 1 + LenEncStringSize [], true) ∧
      ReadLenEncStringAsBytes data' 1 = some ([], 1 + LenEncStringSize [], false, true)) ∧
    (∃ data', WriteLenEncString [7, 7, 7] 0 [97, 98] =
        some (data', 0 + LenEncStringSize [97, 98]) ∧
      readLenEncString data' 0 = some ([97, 98], 0 + LenEncStringSize [97, 98], true) ∧
      ReadLenEncStringAsBytes data' 0 =
        some ([97, 98], 0 + LenEncStringSize [97, 98], false, true)) ∧
    (∃ data', WriteLenEncString (List.replicate 300 7) 5 (List.replicate 251 97) =
        some (data', 5 + LenEncStringSize (List.replicate 251 97)) ∧
      readLenEncString data' 5 =
        some (List.replicate 251 97, 5 + LenEncStringSize (List.replicate 251 97), true) ∧
      ReadLenEncStringAsBytes data' 5 =
        some (List.replicate 251 97, 5 + LenEncStringSize (List.replicate 251 97),
          false, true)) :=
  ⟨C7_lenEncString_round_trip [7, 7, 7] [] 1 (by decide) (by decide) (by decide) (by decide),
   C7_lenEncString_round_trip [7, 7, 7] [97, 98] 0 (by decide) (by decide) (by decide)
     (by decide),
   C7_lenEncString_round_trip (List.replicate 300 7) (List.replicate 251 97) 5 (by decide)
     (by rw [List.length_replicate]; decide)
     (by simp only [LenEncStringSize, len, List.length_replicate]; decide)
     (by rw [List.length_replicate]; decide)⟩

/-- C8. NUL-terminated string at a position past the end: on the 2-byte buffer
`{1, 2}`, which holds no zero byte, `ReadNullString` at position 3 panics (the
slice expression `data[3:]` is out of range), while at position 2, the end of
the buffer, it returns `ok=false`. -/
theorem C8_readNullString_past_end :
    ReadNullString [1, 2] 3 = none ∧ ReadNullString [1, 2] 2 = some ([], 0, false) := by
  decide

/-- C9. NUL-terminated string round trip: for every string `value` without a
zero byte, every buffer `data` and position `pos >= 0` with
`pos + len(value) + 1 <= len(data)`, `WriteNullString` returns
`n = pos + LenNullString(value) = pos + len(value) + 1` and on the buffer it
leaves `ReadNullString` at `pos` returns `(value, n, true)`. -/
theorem C9_nullString_round_trip (data value : List Nat) (pos : Int) (hpos : 0 ≤ pos)
    (hnz : ∀ b ∈ value, b ≠ 0) (hcap : pos + (value.length : Int) + 1 ≤ len data)
    (hlen : data.length < 2 ^ 62) :
    ∃ data', WriteNullString data pos value = some (data', pos + LenNullString value) ∧
      pos + LenNullString value = pos + (value.length : Int) + 1 ∧
      ReadNullString data' pos = some (value, pos + LenNullString value, true) := by
  have hl : len data < 2 ^ 62 := by
    unfold len
    exact_mod_cast hlen
  have hL : LenNullString value = (value.length : Int) + 1 :=
    addInt_eq_add (by omega) (by omega)
  obtain ⟨pre, mid1, mid2, post, rfl, hpre, hm1, hm2⟩ :=
    exists_two_windows data pos value.length 1 hpos (by push_cast; omega)
  obtain ⟨x, rfl⟩ := List.length_eq_one.mp hm2
  rw [hL, ← Int.add_assoc]
  refine ⟨pre ++ value ++ 0 :: post, ?_, rfl, ?_⟩
  · rw [List.append_assoc (pre ++ mid1), List.singleton_append]
    exact WriteNullString_window pre mid1 post value x pos hpre.symm hm1 (by omega)
  · exact ReadNullString_window pre post value pos hpre.symm hnz (by omega)

/-- C9 at the string `"ab"` written at position 1 of a 5-byte buffer. -/
theorem C9_nullString_round_trip_witness :
    ∃ data', WriteNullString [7, 7, 7, 7, 7] 1 [97, 98] =
        some (data', 1 + LenNullString [97, 98]) ∧
      1 + LenNullString [97, 98] = 1 + (([97, 98] : List Nat).length : Int) + 1 ∧
      ReadNullString data' 1 = some ([97, 98], 1 + LenNullString [97, 98], true) :=
  C9_nullString_round_trip [7, 7, 7, 7, 7] [97, 98] 1 (by decide) (by decide) (by decide)
    (by decide)

/-! ## Claims: fixed-width integers -/

/-- C10. Fixed-width round trip: for each width `w` in 16, 32, 64, every
`w`-bit value `v`, every buffer `data` and position `pos >= 0` with
`pos + w/8 <= len(data)`, `WriteUintW(data, pos, v)` returns `n = pos + w/8`,
the bytes it writes are the little-endian bytes of `v`, and on the buffer it
leaves `ReadUintW` at `pos` returns `(v, n, true)`; likewise
`ReadUintW(AppendUintW(data, v), len(data))` returns
`(v, len(data) + w/8, true)`. -/
theorem C10_fixed_width_round_trip (data : List Nat) (pos : Int) (v16 v32 v64 : Nat)
    (h16 : v16 < 2 ^ 16) (h32 : v32 < 2 ^ 32) (h64 : v64 < 2 ^ 64) (hpos : 0 ≤ pos)
    (hlen : data.length < 2 ^ 62) :
    (pos + 2 ≤ len data →
      ∃ data', WriteUint16 data pos v16 = some (data', pos + 2) ∧
        slice data' pos (pos + 2) = some [v16 % 256, v16 >>> 8 % 256] ∧
        ReadUint16 data' pos = some (v16, pos + 2, true)) ∧
    ReadUint16 (AppendUint16 data v16) (len data) = some (v16, len data + 2, true) ∧
    (pos + 4 ≤ len data →
      ∃ data', WriteUint32 data pos v32 = some (data', pos + 4) ∧
        slice data' pos (pos + 4) =
          some [v32 % 256, v32 >>> 8 % 256, v32 >>> 16 % 256, v32 >>> 24 % 256] ∧
        ReadUint32 data' pos = some (v32, pos + 4, true)) ∧
    ReadUint32 (AppendUint32 data v32) (len data) = some (v32, len data + 4, true) ∧
    (pos + 8 ≤ len data →
      ∃ data', WriteUint64 data pos v64 = some (data', pos + 8) ∧
        slice data' pos (pos + 8) =
          some [v64 % 256, v64 >>> 8 % 256, v64 >>> 16 % 256, v64 >>> 24 % 256,
            v64 >>> 32 % 256, v64 >>> 40 % 256, v64 >>> 48 % 256, v64 >>> 56 % 256] ∧
        ReadUint64 data' pos = some (v64, pos + 8, true)) ∧
    ReadUint64 (AppendUint64 data v64) (len data) = some (v64, len data + 8, true) := by
  have hl : len data < 2 ^ 62 := by
    unfold len
    exact_mod_cast hlen
  have hl0 : 0 ≤ len data := by
    unfold len
    omega
  refine ⟨fun hcap => ?_, ?_, fun hcap => ?_, ?_, fun hcap => ?_, ?_⟩
  · obtain ⟨pre, mid, post, rfl, hpre, hmid, -, -, -⟩ := exists_window data pos 2 hpos hcap
    refine ⟨_, WriteUint16_window pre mid post pos v16 hpre hmid (by omega), ?_, ?_⟩
    · exact slice_mid pre _ post pos (pos + 2) hpre.symm (by rw [hpre]; rfl)
    · rw [ReadUint16_window pre post pos _ _ hpre (by omega), bytes16_compose h16]
  · have h := ReadUint16_window data [] (len data) (byteOf v16) (byteOf (v16 >>> 8)) rfl
      (by omega)
    rw [bytes16_compose h16, List.append_nil] at h
    rw [AppendUint16_eq, h]
  · obtain ⟨pre, mid, post, rfl, hpre, hmid, -, -, -⟩ := exists_window data pos 4 hpos hcap
    refine ⟨_, WriteUint32_window pre mid post pos v32 hpre hmid (by omega), ?_, ?_⟩
    · exact slice_mid pre _ post pos (pos + 4) hpre.symm (by rw [hpre]; rfl)
    · rw [ReadUint32_window pre post pos _ _ _ _ hpre (by omega), bytes32_compose h32]
  · have h := ReadUint32_window data [] (len data) (byteOf v32) (byteOf (v32 >>> 8))
      (byteOf (v32 >>> 16)) (byteOf (v32 >>> 24)) rfl (by omega)
    rw [bytes32_compose h32, List.append_nil] at h
    rw [AppendUint32_eq, h]
  · obtain ⟨pre, mid, post, rfl, hpre, hmid, -, -, -⟩ := exists_window data pos 8 hpos hcap
    refine ⟨_, WriteUint64_window pre mid post pos v64 hpre hmid (by omega), ?_, ?_⟩
    · exact slice_mid pre _ post pos (pos + 8) hpre.symm (by rw [hpre]; rfl)
    · rw [ReadUint64_window pre post pos _ _ _ _ _ _ _ _ hpre (by omega), bytes8_compose h64]
  · have h := ReadUint64_window data [] (len data) (byteOf v64) (byteOf (v64 >>> 8))
      (byteOf (v64 >>> 16)) (byteOf (v64 >>> 24)) (byteOf (v64 >>> 32)) (byteOf (v64 >>> 40))
      (byteOf (v64 >>> 48)) (byteOf (v64 >>> 56)) rfl (by omega)
    rw [bytes8_compose h64, List.append_nil] at h
    rw [AppendUint64_eq, h]

/-- C10 at the values `0xBEEF`, `0xDEADBEEF` and `2^64 - 1`, written at position 1
of the 10-byte buffer `{7, ..., 7}` and appended to it. -/
theorem C10_fixed_width_round_trip_witness :
    (1 + 2 ≤ len (List.replicate 10 7) →
      ∃ data', WriteUint16 (List.replicate 10 7) 1 0xBEEF = some (data', 1 + 2) ∧
        slice data' 1 (1 + 2) = some [0xBEEF % 256, 0xBEEF >>> 8 % 256] ∧
        ReadUint16 data' 1 = some (0xBEEF, 1 + 2, true)) ∧
    ReadUint16 (AppendUint16 (List.replicate 10 7) 0xBEEF) (len (List.replicate 10 7)) =
      some (0xBEEF, len (List.replicate 10 7) + 2, true) ∧
    (1 + 4 ≤ len (List.replicate 10 7) →
      ∃ data', WriteUint32 (List.replicate 10 7) 1 0xDEADBEEF = some (data', 1 + 4) ∧
        slice data' 1 (1 + 4) =
          some [0xDEADBEEF % 256, 0xDEADBEEF >>> 8 % 256, 0xDEADBEEF >>> 16 % 256,
            0xDEADBEEF >>> 24 % 256] ∧
        ReadUint32 data' 1 = some (0xDEADBEEF, 1 + 4, true)) ∧
    ReadUint32 (AppendUint32 (List.replicate 10 7) 0xDEADBEEF) (len (List.replicate 10 7)) =
      some (0xDEADBEEF, len (List.replicate 10 7) + 4, true) ∧
    (1 + 8 ≤ len (List.replicate 10 7) →
      ∃ data', WriteUint64 (List.replicate 10 7) 1 (2 ^ 64 - 1) = some (data', 1 + 8) ∧
        slice data' 1 (1 + 8) =
          some [(2 ^ 64 - 1) % 256, (2 ^ 64 - 1) >>> 8 % 256, (2 ^ 64 - 1) >>> 16 % 256,
            (2 ^ 64 - 1) >>> 24 % 256, (2 ^ 64 - 1) >>> 32 % 256, (2 ^ 64 - 1) >>> 40 % 256,
            (2 ^ 64 - 1) >>> 48 % 256, (2 ^ 64 - 1) >>> 56 % 256] ∧
        ReadUint64 data' 1 = some (2 ^ 64 - 1, 1 + 8, true)) ∧
    ReadUint64 (AppendUint64 (List.replicate 10 7) (2 ^ 64 - 1)) (len (List.replicate 10 7)) =
      some (2 ^ 64 - 1, len (List.replicate 10 7) + 8, true) :=
  C10_fixed_width_round_trip (List.replicate 10 7) 1 0xBEEF 0xDEADBEEF (2 ^ 64 - 1)
    (by decide) (by decide) (by decide) (by decide) (by decide)

/-! ## Appending versus writing -/

theorem AppendLenEncInt_eq_append (data : List Nat) (i : Nat) :
    AppendLenEncInt data i = data ++ AppendLenEncInt [] i := by
  unfold AppendLenEncInt append
  split_ifs <;> simp

/-- Written into a buffer of exactly its size, the encoding is the byte
sequence `AppendLenEncInt` appends. -/
theorem WriteLenEncInt_exact (buf : List Nat) (i : Nat) (hi : i < 2 ^ 64)
    (hbuf : len buf = LenEncIntSize i) :
    WriteLenEncInt buf 0 i = some (AppendLenEncInt [] i, LenEncIntSize i) := by
  have h := WriteLenEncInt_window [] buf [] 0 i rfl hbuf hi (by decide)
  simpa using h

theorem AppendLenEncStringBytes_eq (data b : List Nat) (hb : b.length < 2 ^ 62) :
    AppendLenEncStringBytes data b = data ++ (AppendLenEncInt [] b.length ++ b) := by
  unfold AppendLenEncStringBytes append
  simp only
  rw [uint64OfInt_natCast _ (by omega), AppendLenEncInt_eq_append, List.append_assoc]

/-! ## Bounds of successful indexing and slicing -/

theorem index_bounds {data : List Nat} {pos : Int} {b : Nat} (h : index data pos = some b) :
    0 ≤ pos ∧ pos < len data := by
  unfold index at h
  by_cases hc : 0 ≤ pos ∧ pos < len data
  · exact hc
  · rw [if_neg hc] at h
    cases h

theorem index_mem {data : List Nat} {pos : Int} {b : Nat} (h : index data pos = some b) :
    b ∈ data := by
  have hb := index_bounds h
  rw [index, if_pos hb] at h
  exact List.getElem?_mem h

theorem slice_bounds {data s : List Nat} {lo hi : Int} (h : slice data lo hi = some s) :
    0 ≤ lo ∧ lo ≤ hi ∧ hi ≤ len data ∧ (s.length : Int) = hi - lo := by
  unfold slice at h
  by_cases hc : 0 ≤ lo ∧ lo ≤ hi ∧ hi ≤ len data
  · rw [if_pos hc] at h
    cases h
    refine ⟨hc.1, hc.2.1, hc.2.2, ?_⟩
    have := hc.2.2
    unfold len at this
    rw [List.length_take, List.length_drop]
    omega
  · rw [if_neg hc] at h
    cases h

theorem slice_empty (data : List Nat) (lo : Int) (h0 : 0 ≤ lo) (h1 : lo ≤ len data) :
    slice data lo lo = some [] := by
  have hc : 0 ≤ lo ∧ lo ≤ lo ∧ lo ≤ len data := ⟨h0, le_refl _, h1⟩
  rw [slice, if_pos hc]
  simp

/-- A slice is determined by the bytes found at its indices. -/
theorem slice_eq_of_index (data l : List Nat) (pos : Int) (hpos : 0 ≤ pos)
    (hcap : pos + (l.length : Int) ≤ len data)
    (h : ∀ j : Nat, j < l.length → index data (pos + (j : Int)) = l[j]?) :
    slice data pos (pos + (l.length : Int)) = some l := by
  obtain ⟨pre, mid, post, rfl, hpre, hmid, -, -, -⟩ := exists_window data pos l.length hpos hcap
  rw [slice_mid pre mid post pos _ hpre.symm (by rw [hpre, hmid])]
  congr 1
  apply List.ext_getElem?
  intro j
  by_cases hj : j < l.length
  · rw [← h j hj, index_mid pre mid post j _ (by rw [hpre]) (by omega)]
  · rw [List.getElem?_eq_none (by omega), List.getElem?_eq_none (by omega)]

theorem IndexByte_range (b : List Nat) (c : Nat) :
    IndexByte b c = -1 ∨ (0 ≤ IndexByte b c ∧ IndexByte b c < (b.length : Int)) := by
  induction b with
  | nil => left; rfl
  | cons x xs ih =>
    rw [IndexByte]
    by_cases hx : x = c
    · right
      rw [if_pos hx]
      simp only [List.length_cons]
      push_cast
      exact ⟨trivial, by omega⟩
    · rw [if_neg hx]
      simp only [List.length_cons]
      push_cast
      rcases ih with h | ⟨h0, h1⟩
      · left
        rw [if_pos h]
      · right
        rw [if_neg (by omega)]
        omega

/-! ## Decoders on a given leading byte -/

theorem ReadLenEncInt_null_marker (data : List Nat) (pos : Int) (hlen : data.length < 2 ^ 62)
    (h : index data pos = some 0xfb) :
    ReadLenEncInt data pos = some (0, pos + 1, true, true) := by
  have hb := index_bounds h
  have hl : len data < 2 ^ 62 := by
    unfold len
    exact_mod_cast hlen
  rw [ReadLenEncInt, if_neg (by omega), h]
  simp only [bind, pure, Option.some_bind, if_true]
  rw [addInt_eq_add (by omega) (by omega)]

theorem ReadLenEncInt_zero_marker (data : List Nat) (pos : Int) (hlen : data.length < 2 ^ 62)
    (h : index data pos = some 0) :
    ReadLenEncInt data pos = some (0, pos + 1, false, true) := by
  have hb := index_bounds h
  have hl : len data < 2 ^ 62 := by
    unfold len
    exact_mod_cast hlen
  rw [ReadLenEncInt, if_neg (by omega), h]
  simp only [bind, pure, Option.some_bind]
  rw [if_neg (by decide), if_neg (by decide), if_neg (by decide), if_neg (by decide),
    addInt_eq_add (by omega) (by omega)]

/-- After a length prefix that declares zero bytes, `ReadLenEncStringAsBytes`
returns the empty slice and the flags of the prefix. -/
theorem ReadLenEncStringAsBytes_zero_size (data : List Nat) (pos p : Int) (isNull : Bool)
    (h0 : 0 < p) (h1 : p ≤ len data) (hlen : data.length < 2 ^ 62)
    (hr : ReadLenEncInt data pos = some (0, p, isNull, true)) :
    ReadLenEncStringAsBytes data pos = some ([], p, isNull, true) := by
  have hl : len data < 2 ^ 62 := by
    unfold len
    exact_mod_cast hlen
  have hi : intOfUint64 0 = 0 := by decide
  have hadd : addInt p 0 = p := by
    rw [addInt_eq_add (by omega) (by omega), Int.add_zero]
  have hsub : subInt p 1 = p - 1 := subInt_eq_sub (by omega) (by omega)
  have hc : ¬ (p - 1 ≥ len data) := by omega
  unfold ReadLenEncStringAsBytes
  rw [hr]
  simp only [bind, pure, Option.some_bind, Bool.not_true, Bool.false_eq_true, if_false,
    hi, hadd, hsub, if_neg hc, slice_empty data p (by omega) h1]

/-- A successful `ReadLenEncStringAsBytes` carries the null flag of a
successful `ReadLenEncInt` at the same position. -/
theorem ReadLenEncStringAsBytes_isNull (data : List Nat) (pos p : Int) (bytes : List Nat)
    (isNull : Bool) (h : ReadLenEncStringAsBytes data pos = some (bytes, p, isNull, true)) :
    ∃ v n, ReadLenEncInt data pos = some (v, n, isNull, true) := by
  unfold ReadLenEncStringAsBytes at h
  cases hr : ReadLenEncInt data pos with
  | none =>
    rw [hr] at h
    cases h
  | some r =>
    obtain ⟨size, n, isNull', ok⟩ := r
    rw [hr] at h
    simp only [bind, pure, Option.some_bind] at h
    cases ok with
    | false =>
      simp at h
    | true =>
      simp only [Bool.not_true, Bool.false_eq_true, if_false] at h
      by_cases hc : subInt (addInt n (intOfUint64 size)) 1 ≥ len data
      · rw [if_pos hc] at h
        simp at h
      · rw [if_neg hc] at h
        cases hs : slice data n (addInt n (intOfUint64 size)) with
        | none =>
          rw [hs] at h
          cases h
        | some s =>
          rw [hs] at h
          simp only [Option.some_bind, Option.some.injEq, Prod.mk.injEq] at h
          obtain ⟨-, -, hn, -⟩ := h
          exact ⟨size, n, by rw [hn]⟩

/-! ## Next position of a successful decode -/

theorem wrapInt_add_eq {a k : Int} (h0 : 0 ≤ a) (hk0 : 0 ≤ k) (hk : k < 2 ^ 62)
    (h : a ≤ addInt a k) : addInt a k = a + k := by
  unfold addInt wrapInt at *
  omega

theorem ReadByte_ok {data : List Nat} {pos p : Int} {b : Nat} (hlen : data.length < 2 ^ 62)
    (h : ReadByte data pos = some (b, p, true)) :
    index data pos = some b ∧ p = pos + 1 := by
  have hl : len data < 2 ^ 62 := by
    unfold len
    exact_mod_cast hlen
  unfold ReadByte at h
  by_cases hc : pos ≥ len data
  · rw [if_pos hc] at h
    simp at h
  · rw [if_neg hc] at h
    cases hi : index data pos with
    | none =>
      rw [hi] at h
      cases h
    | some x =>
      have hb := index_bounds hi
      rw [hi] at h
      simp only [bind, pure, Option.some_bind, Option.some.injEq, Prod.mk.injEq] at h
      rw [addInt_eq_add (by omega) (by omega)] at h
      exact ⟨by rw [h.1], h.2.1.symm⟩

/-- The shape shared by `ReadUint16`, `ReadUint32` and `ReadUint64`: a check
of `pos + (w - 1)`, then the slice `data[pos : pos+w]`. -/
theorem fixed_width_ok {data : List Nat} {pos p : Int} {v : Nat} (w : Int)
    (dec : List Nat → Option Nat) (hw0 : 0 < w) (hw : w ≤ 8) (hlen : data.length < 2 ^ 62)
    (h : (if addInt pos (w - 1) ≥ len data then some (0, 0, false)
      else (slice data pos (addInt pos w)).bind fun b =>
        (dec b).bind fun v => some (v, addInt pos w, true)) = some (v, p, true)) :
    0 ≤ pos ∧ p = pos + w ∧ p ≤ len data ∧
      ∃ b, slice data pos (pos + w) = some b ∧ dec b = some v := by
  have hl : len data < 2 ^ 62 := by
    unfold len
    exact_mod_cast hlen
  by_cases hc : addInt pos (w - 1) ≥ len data
  · rw [if_pos hc] at h
    simp at h
  · rw [if_neg hc] at h
    cases hs : slice data pos (addInt pos w) with
    | none =>
      rw [hs] at h
      cases h
    | some s =>
      obtain ⟨h0, h1, h2, -⟩ := slice_bounds hs
      have hadd : addInt pos w = pos + w := wrapInt_add_eq h0 (by omega) (by omega) h1
      rw [hs, Option.some_bind] at h
      cases hd : dec s with
      | none =>
        rw [hd] at h
        cases h
      | some x =>
        rw [hd] at h
        simp only [Option.some_bind, Option.some.injEq, Prod.mk.injEq] at h
        rw [hadd] at h hs h2
        exact ⟨h0, h.2.1.symm, by rw [← h.2.1]; exact h2, s, hs, by rw [hd, h.1]⟩

theorem ReadUint16_ok {data : List Nat} {pos p : Int} {v : Nat} (hlen : data.length < 2 ^ 62)
    (h : ReadUint16 data pos = some (v, p, true)) :
    0 ≤ pos ∧ p = pos + 2 ∧ p ≤ len data ∧
      ∃ b, slice data pos (pos + 2) = some b ∧ LittleEndianUint16 b = some v :=
  fixed_width_ok 2 LittleEndianUint16 (by decide) (by decide) hlen h

theorem ReadUint32_ok {data : List Nat} {pos p : Int} {v : Nat} (hlen : data.length < 2 ^ 62)
    (h : ReadUint32 data pos = some (v, p, true)) :
    0 ≤ pos ∧ p = pos + 4 ∧ p ≤ len data ∧
      ∃ b, slice data pos (pos + 4) = some b ∧ LittleEndianUint32 b = some v :=
  fixed_width_ok 4 LittleEndianUint32 (by decide) (by decide) hlen h

theorem ReadUint64_ok {data : List Nat} {pos p : Int} {v : Nat} (hlen : data.length < 2 ^ 62)
    (h : ReadUint64 data pos = some (v, p, true)) :
    0 ≤ pos ∧ p = pos + 8 ∧ p ≤ len data ∧
      ∃ b, slice data pos (pos + 8) = some b ∧ LittleEndianUint64 b = some v :=
  fixed_width_ok 8 LittleEndianUint64 (by decide) (by decide) hlen h

theorem ReadNullString_ok {data s : List Nat} {pos p : Int} (hlen : data.length < 2 ^ 62)
    (h : ReadNullString data pos = some (s, p, true)) :
    0 ≤ pos ∧ pos < p ∧ p ≤ len data ∧
      ∃ rest, sliceFrom data pos = some rest ∧ p = pos + IndexByte rest 0 + 1 ∧
        slice data pos (pos + IndexByte rest 0) = some s := by
  have hl : len data < 2 ^ 62 := by
    unfold len
    exact_mod_cast hlen
  unfold ReadNullString at h
  cases hs : sliceFrom data pos with
  | none =>
    rw [hs] at h
    cases h
  | some rest =>
    obtain ⟨h0, h1, -, h3⟩ := slice_bounds hs
    rw [hs] at h
    simp only [bind, pure, Option.some_bind] at h
    rcases IndexByte_range rest 0 with he | ⟨he0, he1⟩
    · rw [if_pos he] at h
      simp at h
    · rw [if_neg (by omega), addInt_eq_add (by omega) (by omega),
        addInt_eq_add (by omega) (by omega)] at h
      cases hs2 : slice data pos (pos + IndexByte rest 0) with
      | none =>
        rw [hs2] at h
        cases h
      | some s2 =>
        rw [hs2] at h
        simp only [Option.some_bind, Option.some.injEq, Prod.mk.injEq] at h
        exact ⟨h0, by omega, by omega, rest, rfl, h.2.1.symm, by rw [hs2, h.1]⟩

/-! ## The encoding by range of the value -/

theorem LenEncIntSize_range (v : Nat) :
    (LenEncIntSize v = 1 → v < 251) ∧
    (LenEncIntSize v = 3 → 251 ≤ v ∧ v < 2 ^ 16) ∧
    (LenEncIntSize v = 4 → 2 ^ 16 ≤ v ∧ v < 2 ^ 24) ∧
    (LenEncIntSize v = 9 → 2 ^ 24 ≤ v) := by
  unfold LenEncIntSize
  simp only [Nat.reduceShiftLeft]
  split_ifs <;> omega

theorem AppendLenEncInt_one (v : Nat) (h : v < 251) : AppendLenEncInt [] v = [v] := by
  rw [AppendLenEncInt, if_pos (by omega), append, byteOf, Nat.mod_eq_of_lt (by omega)]
  rfl

theorem AppendLenEncInt_three (v : Nat) (h0 : 251 ≤ v) (h1 : v < 2 ^ 16) :
    AppendLenEncInt [] v = [0xfc, v % 256, v / 2 ^ 8 % 256] := by
  rw [AppendLenEncInt, if_neg (by omega), if_pos (by omega)]
  simp only [append, byteOf, Nat.shiftRight_eq_div_pow, List.nil_append]

theorem AppendLenEncInt_four (v : Nat) (h0 : 2 ^ 16 ≤ v) (h1 : v < 2 ^ 24) :
    AppendLenEncInt [] v = [0xfd, v % 256, v / 2 ^ 8 % 256, v / 2 ^ 16 % 256] := by
  rw [AppendLenEncInt, if_neg (by omega), if_neg (by omega), if_pos (by omega)]
  simp only [append, byteOf, Nat.shiftRight_eq_div_pow, List.nil_append]

theorem AppendLenEncInt_nine (v : Nat) (h0 : 2 ^ 24 ≤ v) (h1 : v < 2 ^ 64) :
    AppendLenEncInt [] v = [0xfe, v % 256, v / 2 ^ 8 % 256, v / 2 ^ 16 % 256,
      v / 2 ^ 24 % 256, v / 2 ^ 32 % 256, v / 2 ^ 40 % 256, v / 2 ^ 48 % 256,
      v / 2 ^ 56 % 256] := by
  rw [AppendLenEncInt, if_neg (by omega), if_neg (by omega), if_neg (by omega),
    if_pos (by omega)]
  simp only [append, byteOf, Nat.shiftRight_eq_div_pow, List.nil_append]

/-! ## Skipping versus reading a length-encoded string -/

/-- Whenever `readLenEncString` returns, `skipLenEncString` returns the same
next position and flag. -/
theorem skipLenEncString_of_read (data s : List Nat) (pos p : Int) (ok : Bool)
    (h : readLenEncString data pos = some (s, p, ok)) :
    skipLenEncString data pos = some (p, ok) := by
  unfold readLenEncString at h
  unfold skipLenEncString
  cases hr : ReadLenEncInt data pos with
  | none =>
    rw [hr] at h
    cases h
  | some r =>
    obtain ⟨size, n, isNull, ok'⟩ := r
    rw [hr] at h
    simp only [bind, pure, Option.some_bind] at h ⊢
    cases ok' with
    | false =>
      simp only [Bool.not_false, if_true, Option.some.injEq, Prod.mk.injEq] at h ⊢
      exact ⟨h.2.1, h.2.2⟩
    | true =>
      simp only [Bool.not_true, Bool.false_eq_true, if_false] at h ⊢
      by_cases hc : subInt (addInt n (intOfUint64 size)) 1 ≥ len data
      · rw [if_pos hc] at h ⊢
        simp only [Option.some.injEq, Prod.mk.injEq] at h ⊢
        exact ⟨h.2.1, h.2.2⟩
      · rw [if_neg hc] at h ⊢
        cases hs : slice data n (addInt n (intOfUint64 size)) with
        | none =>
          rw [hs] at h
          cases h
        | some s' =>
          rw [hs] at h
          simp only [Option.some_bind, Option.some.injEq, Prod.mk.injEq] at h ⊢
          exact ⟨h.2.1, h.2.2⟩

/-! ## Claims: sizes and layouts -/

/-- C11. `LenEncIntSize` is the width actually encoded: `LenEncIntSize(i)` is 1
if `i < 251`, 3 if `251 <= i < 2^16`, 4 if `2^16 <= i < 2^24` and 9 otherwise;
`WriteLenEncInt(buf, pos, i)`, given room for the encoding, returns
`pos + LenEncIntSize(i)`; and
`len(AppendLenEncInt(data, i)) = len(data) + LenEncIntSize(i)`. -/
theorem C11_lenEncIntSize_width (data buf : List Nat) (pos : Int) (i : Nat)
    (hi : i < 2 ^ 64) (hpos : 0 ≤ pos) (hcap : pos + LenEncIntSize i ≤ len buf)
    (hlen : buf.length < 2 ^ 62) :
    (i < 251 → LenEncIntSize i = 1) ∧
    (251 ≤ i → i < 2 ^ 16 → LenEncIntSize i = 3) ∧
    (2 ^ 16 ≤ i → i < 2 ^ 24 → LenEncIntSize i = 4) ∧
    (2 ^ 24 ≤ i → LenEncIntSize i = 9) ∧
    (∃ buf', WriteLenEncInt buf pos i = some (buf', pos + LenEncIntSize i)) ∧
    len (AppendLenEncInt data i) = len data + LenEncIntSize i := by
  refine ⟨fun h => ?_, fun h1 h2 => ?_, fun h1 h2 => ?_, fun h => ?_,
    ⟨_, WriteLenEncInt_spec buf pos i hi hpos hcap hlen⟩, AppendLenEncInt_length data i hi⟩
  · rw [LenEncIntSize, if_pos h]
  · rw [LenEncIntSize, if_neg (by omega), if_pos (by simpa using h2)]
  · rw [LenEncIntSize, if_neg (by omega), if_neg (by simp; omega), if_pos (by simpa using h2)]
  · rw [LenEncIntSize, if_neg (by omega), if_neg (by simp; omega), if_neg (by simp; omega)]

/-- C11 at the value 65536 (the first of width 4), written at position 1 of a
6-byte buffer and appended to a 2-byte buffer. -/
theorem C11_lenEncIntSize_width_witness :
    ((65536 : Nat) < 251 → LenEncIntSize 65536 = 1) ∧
    (251 ≤ (65536 : Nat) → (65536 : Nat) < 2 ^ 16 → LenEncIntSize 65536 = 3) ∧
    (2 ^ 16 ≤ (65536 : Nat) → (65536 : Nat) < 2 ^ 24 → LenEncIntSize 65536 = 4) ∧
    (2 ^ 24 ≤ (65536 : Nat) → LenEncIntSize 65536 = 9) ∧
    (∃ buf', WriteLenEncInt [7, 7, 7, 7, 7, 7] 1 65536 =
      some (buf', 1 + LenEncIntSize 65536)) ∧
    len (AppendLenEncInt [1, 2] 65536) = len [1, 2] + LenEncIntSize 65536 :=
  C11_lenEncIntSize_width [1, 2] [7, 7, 7, 7, 7, 7] 1 65536 (by decide) (by decide)
    (by decide) (by decide)

/-- C17. Length-encoded string layout and size: with room for the encoding,
`WriteLenEncString(data, pos, value)` leaves at `pos` the length-encoded
integer encoding of `len(value)` immediately followed by the bytes of `value`,
and returns `pos + LenEncStringSize(value)`, where
`LenEncStringSize(value) = LenEncIntSize(len(value)) + len(value)`;
`LenEncStringSize("ab") = 3` and writing `"ab"` at position 0 of a 3-byte
buffer yields `{0x02, 'a', 'b'}`; and `AppendLenEncStringBytes(dst, value)` is
`dst` followed by that same byte sequence. -/
theorem C17_lenEncString_layout (data dst value : List Nat) (pos : Int) (hpos : 0 ≤ pos)
    (hval : value.length < 2 ^ 62) (hcap : pos + LenEncStringSize value ≤ len data)
    (hlen : data.length < 2 ^ 62) :
    LenEncStringSize value = LenEncIntSize value.length + (value.length : Int) ∧
    (∃ data', WriteLenEncString data pos value = some (data', pos + LenEncStringSize value) ∧
      slice data' pos (pos + LenEncStringSize value) =
        some (AppendLenEncInt [] value.length ++ value)) ∧
    LenEncStringSize [97, 98] = 3 ∧
    WriteLenEncString [0, 0, 0] 0 [97, 98] = some ([0x02, 97, 98], 3) ∧
    AppendLenEncStringBytes dst value = dst ++ (AppendLenEncInt [] value.length ++ value) := by
  have hs := LenEncIntSize_pos value.length
  have hsz := LenEncStringSize_eq value hval
  refine ⟨hsz, ?_, by decide, by decide, AppendLenEncStringBytes_eq dst value hval⟩
  rw [hsz] at hcap ⊢
  have hl : len data < 2 ^ 62 := by
    unfold len
    exact_mod_cast hlen
  obtain ⟨pre, mid1, mid2, post, rfl, hpre, hm1, hm2⟩ :=
    exists_two_windows data pos (LenEncIntSize value.length).toNat value.length hpos
      (by rw [Int.toNat_of_nonneg (by omega)]; omega)
  have hw := WriteLenEncString_window pre mid1 mid2 post value pos hpre (by omega) hm2
    (by omega)
  have hal := AppendLenEncInt_length [] value.length (by omega)
  refine ⟨_, by rw [hw, Int.add_assoc], ?_⟩
  rw [List.append_assoc pre]
  exact slice_mid pre _ post pos _ hpre.symm
    (by rw [List.length_append]; push_cast; rw [hal, hpre]; simp)

/-- C17 at the string `"ab"` written at position 0 of a 3-byte buffer and
appended to the buffer `{1}`. -/
theorem C17_lenEncString_layout_witness :
    LenEncStringSize [97, 98] =
      LenEncIntSize ([97, 98] : List Nat).length + (([97, 98] : List Nat).length : Int) ∧
    (∃ data', WriteLenEncString [0, 0, 0] 0 [97, 98] =
        some (data', 0 + LenEncStringSize [97, 98]) ∧
      slice data' 0 (0 + LenEncStringSize [97, 98]) =
        some (AppendLenEncInt [] ([97, 98] : List Nat).length ++ [97, 98])) ∧
    LenEncStringSize [97, 98] = 3 ∧
    WriteLenEncString [0, 0, 0] 0 [97, 98] = some ([0x02, 97, 98], 3) ∧
    AppendLenEncStringBytes [1] [97, 98] =
      [1] ++ (AppendLenEncInt [] ([97, 98] : List Nat).length ++ [97, 98]) :=
  C17_lenEncString_layout [0, 0, 0] [1] [97, 98] 0 (by decide) (by decide) (by decide)
    (by decide)

/-- C20. `AppendLenEncInt` and `WriteLenEncInt` produce the same encoding:
`AppendLenEncInt(data, i)` is `data` followed by the `LenEncIntSize(i)` bytes
that `WriteLenEncInt(buf, 0, i)` leaves in a buffer `buf` of length
`LenEncIntSize(i)`; `data` is kept as a prefix; and the conditions of the four
returning branches cover every unsigned 64-bit value, so the fall-through
`return data` is not reached and the result is strictly longer than `data`. -/
theorem C20_append_eq_write (data buf : List Nat) (i : Nat) (hi : i < 2 ^ 64)
    (hbuf : len buf = LenEncIntSize i) :
    ∃ enc, WriteLenEncInt buf 0 i = some (enc, LenEncIntSize i) ∧
      len enc = LenEncIntSize i ∧
      AppendLenEncInt data i = data ++ enc ∧
      data <+: AppendLenEncInt data i ∧
      ¬ (¬ i ≤ 250 ∧ ¬ i ≤ 0xffff ∧ ¬ i ≤ 0xffffff ∧ ¬ i ≤ 0xffffffffffffffff) ∧
      len data < len (AppendLenEncInt data i) := by
  have hs := LenEncIntSize_pos i
  have hl := AppendLenEncInt_length data i hi
  refine ⟨AppendLenEncInt [] i, WriteLenEncInt_exact buf i hi hbuf, ?_,
    AppendLenEncInt_eq_append data i, ?_, by omega, ?_⟩
  · have := AppendLenEncInt_length [] i hi
    simpa [len] using this
  · rw [AppendLenEncInt_eq_append]
    exact List.prefix_append _ _
  · unfold len
    omega

/-- C20 at the value 300 appended to the buffer `{1, 2}`, with a 3-byte
scratch buffer for the write. -/
theorem C20_append_eq_write_witness :
    ∃ enc, WriteLenEncInt [0, 0, 0] 0 300 = some (enc, LenEncIntSize 300) ∧
      len enc = LenEncIntSize 300 ∧
      AppendLenEncInt [1, 2] 300 = [1, 2] ++ enc ∧
      [1, 2] <+: AppendLenEncInt [1, 2] 300 ∧
      ¬ (¬ 300 ≤ 250 ∧ ¬ 300 ≤ 0xffff ∧ ¬ 300 ≤ 0xffffff ∧ ¬ 300 ≤ 0xffffffffffffffff) ∧
      len [1, 2] < len (AppendLenEncInt [1, 2] 300) :=
  C20_append_eq_write [1, 2] [0, 0, 0] 300 (by decide) (by decide)

/-! ## Claims: null flag and cursor -/

/-- C16. NULL flag of the length-encoded string decoder: at a position inside
the buffer, the leading byte `0xFB` gives `(empty, pos+1, isNull=true, ok=true)`
and the leading byte `0x00` gives `(empty, pos+1, isNull=false, ok=true)`; and
in every successful result `isNull` is the flag that `ReadLenEncInt` reports,
with success, at the same position. -/
theorem C16_readLenEncStringAsBytes_null (data : List Nat) (pos : Int) (hpos : 0 ≤ pos)
    (hlen : data.length < 2 ^ 62) :
    (pos < len data → index data pos = some 0xFB →
      ReadLenEncStringAsBytes data pos = some ([], pos + 1, true, true)) ∧
    (pos < len data → index data pos = some 0x00 →
      ReadLenEncStringAsBytes data pos = some ([], pos + 1, false, true)) ∧
    (∀ bytes p isNull, ReadLenEncStringAsBytes data pos = some (bytes, p, isNull, true) →
      ∃ v n, ReadLenEncInt data pos = some (v, n, isNull, true)) :=
  ⟨fun hlt h => ReadLenEncStringAsBytes_zero_size data pos (pos + 1) true (by omega)
      (by omega) hlen (ReadLenEncInt_null_marker data pos hlen h),
   fun hlt h => ReadLenEncStringAsBytes_zero_size data pos (pos + 1) false (by omega)
      (by omega) hlen (ReadLenEncInt_zero_marker data pos hlen h),
   fun bytes p isNull h => ReadLenEncStringAsBytes_isNull data pos p bytes isNull h⟩

/-- C16 at the buffer `{0xFB, 0x00}`, read at position 0. -/
theorem C16_readLenEncStringAsBytes_null_witness :
    ((0 : Int) < len [0xFB, 0x00] → index [0xFB, 0x00] 0 = some 0xFB →
      ReadLenEncStringAsBytes [0xFB, 0x00] 0 = some ([], 0 + 1, true, true)) ∧
    ((0 : Int) < len [0xFB, 0x00] → index [0xFB, 0x00] 0 = some 0x00 →
      ReadLenEncStringAsBytes [0xFB, 0x00] 0 = some ([], 0 + 1, false, true)) ∧
    (∀ bytes p isNull,
      ReadLenEncStringAsBytes [0xFB, 0x00] 0 = some (bytes, p, isNull, true) →
      ∃ v n, ReadLenEncInt [0xFB, 0x00] 0 = some (v, n, isNull, true)) :=
  C16_readLenEncStringAsBytes_null [0xFB, 0x00] 0 (by decide) (by decide)

/-- C18. Cursor invariant of the primitive decoders: whenever `ReadByte`,
`ReadUint16`, `ReadUint32`, `ReadUint64`, `ReadNullString` or `ReadLenEncInt`
reports `ok=true` at a position `pos >= 0`, the returned next position `p`
satisfies `pos < p <= len(data)`; for `ReadLenEncInt`, `p - pos` is one of
1, 3, 4, 9. -/
theorem C18_decoder_cursor (data : List Nat) (pos : Int) (hpos : 0 ≤ pos)
    (hlen : data.length < 2 ^ 62) :
    (∀ b p, ReadByte data pos = some (b, p, true) → pos < p ∧ p ≤ len data) ∧
    (∀ v p, ReadUint16 data pos = some (v, p, true) → pos < p ∧ p ≤ len data) ∧
    (∀ v p, ReadUint32 data pos = some (v, p, true) → pos < p ∧ p ≤ len data) ∧
    (∀ v p, ReadUint64 data pos = some (v, p, true) → pos < p ∧ p ≤ len data) ∧
    (∀ s p, ReadNullString data pos = some (s, p, true) → pos < p ∧ p ≤ len data) ∧
    (∀ v p isNull, ReadLenEncInt data pos = some (v, p, isNull, true) →
      pos < p ∧ p ≤ len data ∧ (p - pos = 1 ∨ p - pos = 3 ∨ p - pos = 4 ∨ p - pos = 9)) := by
  refine ⟨fun b p h => ?_, fun v p h => ?_, fun v p h => ?_, fun v p h => ?_,
    fun s p h => ?_, fun v p isNull h => ?_⟩
  · obtain ⟨hi, hp⟩ := ReadByte_ok hlen h
    have := index_bounds hi
    omega
  · obtain ⟨-, hp, hle, -⟩ := ReadUint16_ok hlen h
    omega
  · obtain ⟨-, hp, hle, -⟩ := ReadUint32_ok hlen h
    omega
  · obtain ⟨-, hp, hle, -⟩ := ReadUint64_ok hlen h
    omega
  · obtain ⟨-, hlt, hle, -⟩ := ReadNullString_ok hlen h
    exact ⟨hlt, hle⟩
  · rcases ReadLenEncInt_cases data pos hpos hlen with ⟨-, hr⟩ | ⟨m, hm, hlt, hc⟩
    · rw [hr] at h
      simp at h
    · rcases hc with ⟨c, hr⟩ | ⟨c, h', hr⟩ | ⟨c, h', b1, b2, -, -, hr⟩ | ⟨c, h', hr⟩ |
        ⟨c, h', b1, b2, b3, -, -, -, hr⟩ | ⟨c, h', hr⟩ |
        ⟨c, h', b1, b2, b3, b4, b5, b6, b7, b8, -, -, -, -, -, -, -, -, hr⟩ |
        ⟨c1, c2, c3, c4, hr⟩
      all_goals
        rw [hr] at h
        simp only [Option.some.injEq, Prod.mk.injEq, Bool.false_eq_true, and_false] at h
      all_goals
        obtain ⟨-, hp, -⟩ := h
        omega

/-- C18 at the buffer `{0xFC, 0x2C, 0x01, 0x00}`, read at position 0. -/
theorem C18_decoder_cursor_witness :
    (∀ b p, ReadByte [0xFC, 0x2C, 0x01, 0x00] 0 = some (b, p, true) →
      0 < p ∧ p ≤ len [0xFC, 0x2C, 0x01, 0x00]) ∧
    (∀ v p, ReadUint16 [0xFC, 0x2C, 0x01, 0x00] 0 = some (v, p, true) →
      0 < p ∧ p ≤ len [0xFC, 0x2C, 0x01, 0x00]) ∧
    (∀ v p, ReadUint32 [0xFC, 0x2C, 0x01, 0x00] 0 = some (v, p, true) →
      0 < p ∧ p ≤ len [0xFC, 0x2C, 0x01, 0x00]) ∧
    (∀ v p, ReadUint64 [0xFC, 0x2C, 0x01, 0x00] 0 = some (v, p, true) →
      0 < p ∧ p ≤ len [0xFC, 0x2C, 0x01, 0x00]) ∧
    (∀ s p, ReadNullString [0xFC, 0x2C, 0x01, 0x00] 0 = some (s, p, true) →
      0 < p ∧ p ≤ len [0xFC, 0x2C, 0x01, 0x00]) ∧
    (∀ v p isNull, ReadLenEncInt [0xFC, 0x2C, 0x01, 0x00] 0 = some (v, p, isNull, true) →
      0 < p ∧ p ≤ len [0xFC, 0x2C, 0x01, 0x00] ∧
        (p - 0 = 1 ∨ p - 0 = 3 ∨ p - 0 = 4 ∨ p - 0 = 9)) :=
  C18_decoder_cursor [0xFC, 0x2C, 0x01, 0x00] 0 (by decide) (by decide)

/-! ## Claims: decode then encode -/

/-- C15, as stated, fails: the buffer `{0xFC, 0x05, 0x00}` decodes at
position 0 to `(5, 3, isNull=false, ok=true)`, but re-encoding 5 gives the
single byte `{0x05}`, not the three bytes `data[0:3]` that were consumed. -/
theorem C15_decode_encode_counterexample :
    ReadLenEncInt [0xFC, 0x05, 0x00] 0 = some (5, 3, false, true) ∧
    slice [0xFC, 0x05, 0x00] 0 3 = some [0xFC, 0x05, 0x00] ∧
    AppendLenEncInt [] 5 = [0x05] ∧
    slice [0xFC, 0x05, 0x00] 0 3 ≠ some (AppendLenEncInt [] 5) := by
  decide

/-- C15, amended. For every buffer of bytes and position `pos >= 0` at which
`ReadLenEncInt` returns `(v, n, isNull=false, ok=true)` after consuming the
narrowest encoding of `v`, that is `n - pos = LenEncIntSize(v)`, re-encoding
`v` reproduces the bytes consumed: `AppendLenEncInt(empty, v)` is
`data[pos:n]`. -/
theorem C15_decode_encode_amended (data : List Nat) (pos n : Int) (v : Nat) (hpos : 0 ≤ pos)
    (hlen : data.length < 2 ^ 62) (hbytes : ∀ b ∈ data, b < 256)
    (hr : ReadLenEncInt data pos = some (v, n, false, true))
    (hmin : n - pos = LenEncIntSize v) :
    slice data pos n = some (AppendLenEncInt [] v) := by
  rcases ReadLenEncInt_cases data pos hpos hlen with ⟨-, hr'⟩ | ⟨m, hm, hlt, hc⟩
  · rw [hr'] at hr
    simp at hr
  have hm256 := hbytes m (index_mem hm)
  rcases hc with ⟨c, hr'⟩ | ⟨c, h', hr'⟩ | ⟨c, h', b1, b2, h1, h2, hr'⟩ | ⟨c, h', hr'⟩ |
    ⟨c, h', b1, b2, b3, h1, h2, h3, hr'⟩ | ⟨c, h', hr'⟩ |
    ⟨c, h', b1, b2, b3, b4, b5, b6, b7, b8, h1, h2, h3, h4, h5, h6, h7, h8, hr'⟩ |
    ⟨c1, c2, c3, c4, hr'⟩
  all_goals
    rw [hr'] at hr
    simp only [Option.some.injEq, Prod.mk.injEq, Bool.true_eq_false, Bool.false_eq_true,
      and_false, and_true, false_and] at hr
  · obtain ⟨hv, hn⟩ := hr
    have l1 := hbytes b1 (index_mem h1)
    have l2 := hbytes b2 (index_mem h2)
    rw [compose2 l1 l2] at hv
    obtain ⟨r0, r1⟩ := (LenEncIntSize_range v).2.1 (by omega)
    have hs := slice_eq_of_index data [m, b1, b2] pos hpos
      (by simp only [List.length_cons, List.length_nil]; push_cast; omega)
      (by
        intro j hj
        simp only [List.length_cons, List.length_nil] at hj
        interval_cases j
        · simpa using hm
        · simpa using h1
        · simpa using h2)
    have e : [0xfc, v % 256, v / 2 ^ 8 % 256] = [m, b1, b2] := by
      congr 1
      · exact c.symm
      · congr 1
        · omega
        · congr 1
          omega
    rw [AppendLenEncInt_three v r0 r1, e, ← hn]
    simpa using hs
  · obtain ⟨hv, hn⟩ := hr
    have l1 := hbytes b1 (index_mem h1)
    have l2 := hbytes b2 (index_mem h2)
    have l3 := hbytes b3 (index_mem h3)
    rw [compose3 l1 l2 l3] at hv
    obtain ⟨r0, r1⟩ := (LenEncIntSize_range v).2.2.1 (by omega)
    have hs := slice_eq_of_index data [m, b1, b2, b3] pos hpos
      (by simp only [List.length_cons, List.length_nil]; push_cast; omega)
      (by
        intro j hj
        simp only [List.length_cons, List.length_nil] at hj
        interval_cases j
        · simpa using hm
        · simpa using h1
        · simpa using h2
        · simpa using h3)
    have e : [0xfd, v % 256, v / 2 ^ 8 % 256, v / 2 ^ 16 % 256] = [m, b1, b2, b3] := by
      congr 1
      · exact c.symm
      · congr 1
        · omega
        · congr 1
          · omega
          · congr 1
            omega
    rw [AppendLenEncInt_four v r0 r1, e, ← hn]
    simpa using hs
  · obtain ⟨hv, hn⟩ := hr
    have l1 := hbytes b1 (index_mem h1)
    have l2 := hbytes b2 (index_mem h2)
    have l3 := hbytes b3 (index_mem h3)
    have l4 := hbytes b4 (index_mem h4)
    have l5 := hbytes b5 (index_mem h5)
    have l6 := hbytes b6 (index_mem h6)
    have l7 := hbytes b7 (index_mem h7)
    have l8 := hbytes b8 (index_mem h8)
    rw [compose8 l1 l2 l3 l4 l5 l6 l7 l8] at hv
    have r0 := (LenEncIntSize_range v).2.2.2 (by omega)
    have hs := slice_eq_of_index data [m, b1, b2, b3, b4, b5, b6, b7, b8] pos hpos
      (by simp only [List.length_cons, List.length_nil]; push_cast; omega)
      (by
        intro j hj
        simp only [List.length_cons, List.length_nil] at hj
        interval_cases j
        · simpa using hm
        · simpa using h1
        · simpa using h2
        · simpa using h3
        · simpa using h4
        · simpa using h5
        · simpa using h6
        · simpa using h7
        · simpa using h8)
    have e : [0xfe, v % 256, v / 2 ^ 8 % 256, v / 2 ^ 16 % 256, v / 2 ^ 24 % 256,
        v / 2 ^ 32 % 256, v / 2 ^ 40 % 256, v / 2 ^ 48 % 256, v / 2 ^ 56 % 256] =
        [m, b1, b2, b3, b4, b5, b6, b7, b8] := by
      congr 1
      · exact c.symm
      · congr 1
        · omega
        · congr 1
          · omega
          · congr 1
            · omega
            · congr 1
              · omega
              · congr 1
                · omega
                · congr 1
                  · omega
                  · congr 1
                    · omega
                    · congr 1
                      omega
    rw [AppendLenEncInt_nine v r0 (by omega), e, ← hn]
    simpa using hs
  · obtain ⟨hv, hn⟩ := hr
    subst hv
    have r0 := (LenEncIntSize_range m).1 (by omega)
    have hs := slice_eq_of_index data [m] pos hpos
      (by simp only [List.length_cons, List.length_nil]; push_cast; omega)
      (by
        intro j hj
        simp only [List.length_cons, List.length_nil] at hj
        interval_cases j
        simpa using hm)
    rw [AppendLenEncInt_one m r0, ← hn]
    simpa using hs

/-- C15, amended, at the buffer `{0x07, 0xFC, 0x2C, 0x01}` read at position 1,
where the three bytes `0xFC 0x2C 0x01` are the narrowest encoding of 300. -/
theorem C15_decode_encode_amended_witness :
    ReadLenEncInt [0x07, 0xFC, 0x2C, 0x01] 1 = some (300, 4, false, true) ∧
    (4 : Int) - 1 = LenEncIntSize 300 ∧
    slice [0x07, 0xFC, 0x2C, 0x01] 1 4 = some (AppendLenEncInt [] 300) :=
  ⟨by decide, by decide,
    C15_decode_encode_amended [0x07, 0xFC, 0x2C, 0x01] 1 4 300 (by decide) (by decide)
      (by decide) (by decide) (by decide)⟩

/-! ## Claims: bounds checks -/

/-- C12. Bounds check of `ReadBytes` and `ReadBytesCopy`: on the 3-byte buffer
`{1, 2, 3}` at position 2 with size `2^63 - 1`, where `pos + size` exceeds the
buffer length, both panic instead of returning `ok=false`: `pos + size - 1`
wraps to `-2^63`, the check `pos+size-1 >= len(data)` does not fire and the
slice expression `data[2 : -2^63+1]` is out of range. One byte less, at size
`2^63 - 2`, both return `ok=false`. -/
theorem C12_readBytes_overflow :
    subInt (addInt 2 (2 ^ 63 - 1)) 1 = -2 ^ 63 ∧
    ReadBytes [1, 2, 3] 2 (2 ^ 63 - 1) = none ∧
    ReadBytesCopy [1, 2, 3] 2 (2 ^ 63 - 1) = none ∧
    ReadBytes [1, 2, 3] 2 (2 ^ 63 - 2) = some ([], 0, false) ∧
    ReadBytesCopy [1, 2, 3] 2 (2 ^ 63 - 2) = some ([], 0, false) := by
  decide

/-- C13. Bounds check of the fixed-width decoders: at position `2^63 - 1` of
the empty buffer, where `pos + w/8` exceeds the buffer length, `ReadUint16`,
`ReadUint32` and `ReadUint64` panic instead of returning `ok=false`:
`pos + (w/8 - 1)` wraps to a negative number, the check does not fire and the
slice expression `data[pos : pos+w/8]` is out of range. `ReadByte`, which
compares `pos` itself, returns `ok=false` there. -/
theorem C13_readUint_overflow :
    addInt (2 ^ 63 - 1) 1 = -2 ^ 63 ∧
    ReadUint16 [] (2 ^ 63 - 1) = none ∧
    ReadUint32 [] (2 ^ 63 - 1) = none ∧
    ReadUint64 [] (2 ^ 63 - 1) = none ∧
    ReadByte [] (2 ^ 63 - 1) = some (0, 0, false) := by
  decide

/-- C14. Encoding into too small a buffer: on the 2-byte buffer `{9, 9}` at
position 0, the string `"ab"` needs `LenEncStringSize("ab") = 3` bytes, and
`WriteLenEncString` returns normally with the next position 2, having written
only `{0x02, 'a'}`: the `copy` of `writeEOFString` stores the bytes that fit.
`WriteNullString`, which stores its terminator by index, panics on the same
input. -/
theorem C14_writeLenEncString_too_small :
    LenEncStringSize [97, 98] = 3 ∧
    len [9, 9] - 0 < LenEncStringSize [97, 98] ∧
    WriteLenEncString [9, 9] 0 [97, 98] = some ([0x02, 97], 2) ∧
    WriteNullString [9, 9] 0 [97, 98] = none := by
  decide

/-- C19. `skipLenEncString` against `readLenEncString`: on the 9-byte buffer
whose prefix `0xFE 0xFF ... 0xFF` declares the length `2^64 - 1`,
`skipLenEncString` at position 0 returns `(8, true)` while `readLenEncString`
panics, so the two do not agree on that input. -/
theorem C19_skip_read_disagree :
    skipLenEncString [0xFE, 0xFF, 0xFF, 0xFF, 0xFF, 0xFF, 0xFF, 0xFF, 0xFF] 0 =
      some (8, true) ∧
    readLenEncString [0xFE, 0xFF, 0xFF, 0xFF, 0xFF, 0xFF, 0xFF, 0xFF, 0xFF] 0 = none := by
  decide

end DbProxy.mysql
